import Mathlib

/-!
Verification model of the domain-replacer single-page application
(source: src/src/App.tsx).

JavaScript strings are modelled as lists of characters (`Str`).  The
WHATWG URL platform API used by the component (`new URL(...)`,
`url.hostname`, the `hostname` setter and `url.toString()`) is modelled
by an explicit record type together with a parser and serializer for
absolute URLs of the form `scheme://[userinfo@]host[:port][/path][?query][#fragment]`;
inputs outside this fragment are treated as parse failures, matching the
`try ... catch` use in the source.  Browser `localStorage` plus
`JSON.stringify`/`JSON.parse` for one key are modelled by a cell that is
absent, holds a serialized collection, or holds corrupt text on which
`JSON.parse` throws.
-/

set_option linter.unusedVariables false

/-- Model of a JavaScript string: a list of UTF-16-ish characters. -/
abbrev Str := List Char

/-- Table pairing each ASCII upper-case letter with its lower-case form. -/
def lowerTable : List (Char × Char) :=
  [('A','a'), ('B','b'), ('C','c'), ('D','d'), ('E','e'), ('F','f'),
   ('G','g'), ('H','h'), ('I','i'), ('J','j'), ('K','k'), ('L','l'),
   ('M','m'), ('N','n'), ('O','o'), ('P','p'), ('Q','q'), ('R','r'),
   ('S','s'), ('T','t'), ('U','u'), ('V','v'), ('W','w'), ('X','x'),
   ('Y','y'), ('Z','z')]

/-- ASCII lower-casing of a single character, as performed by
`String.prototype.toLowerCase` / WHATWG host parsing on ASCII letters. -/
def lowerChar (c : Char) : Char :=
  match lowerTable.find? (fun p => p.1 == c) with
  | some p => p.2
  | none => c

/-- Lower-casing a whole string. -/
def lowerStr (s : Str) : Str := s.map lowerChar

theorem lowerChar_cases (c : Char) :
    lowerChar c = c ∨ lowerChar c ∈
      ['a','b','c','d','e','f','g','h','i','j','k','l','m',
       'n','o','p','q','r','s','t','u','v','w','x','y','z'] := by
  unfold lowerChar
  cases h : lowerTable.find? (fun p => p.1 == c) with
  | none => exact Or.inl rfl
  | some p =>
    have hp := List.mem_of_find?_eq_some h
    right
    fin_cases hp <;> simp

theorem lowerChar_idem (c : Char) : lowerChar (lowerChar c) = lowerChar c := by
  rcases lowerChar_cases c with h | h
  · rw [h]; exact h
  · generalize hx : lowerChar c = x at h ⊢
    fin_cases h <;> decide

theorem lowerStr_idem (s : Str) : lowerStr (lowerStr s) = lowerStr s := by
  unfold lowerStr
  rw [List.map_map]
  exact List.map_congr_left (fun c _ => lowerChar_idem c)

theorem lowerStr_eq_self (s : Str) (h : ∀ c ∈ s, lowerChar c = c) :
    lowerStr s = s := by
  induction s with
  | nil => rfl
  | cons c cs ih =>
    simp only [lowerStr, List.map_cons]
    rw [h c (by simp)]
    have := ih (fun x hx => h x (by simp [hx]))
    simp only [lowerStr] at this
    rw [this]

/-- Characters stripped by `String.prototype.trim` (the ASCII whitespace
relevant to this application). -/
def isSpaceChar (c : Char) : Bool :=
  c = ' ' || c = '\t' || c = '\n' || c = '\r' || c = '\x0b' || c = '\x0c'

/-- Model of `String.prototype.trim`: remove leading and trailing
whitespace. -/
def trim (s : Str) : Str :=
  ((s.dropWhile isSpaceChar).reverse.dropWhile isSpaceChar).reverse

/-- Model of `text.split('\n')`. -/
def splitLines : Str → List Str
  | [] => [[]]
  | c :: cs =>
    if c = '\n' then [] :: splitLines cs
    else
      match splitLines cs with
      | [] => [[c]]
      | l :: ls => (c :: l) :: ls

/-- Model of `array.join('\n')`. -/
def joinLines : List Str → Str
  | [] => []
  | [l] => l
  | l :: ls => l ++ '\n' :: joinLines ls

theorem splitLines_ne_nil (s : Str) : splitLines s ≠ [] := by
  induction s with
  | nil => simp [splitLines]
  | cons c cs ih =>
    unfold splitLines
    split
    · simp
    · cases h : splitLines cs with
      | nil => simp
      | cons l ls => simp

theorem splitLines_no_newline (s : Str) : ∀ l ∈ splitLines s, '\n' ∉ l := by
  induction s with
  | nil => intro l hl; simp [splitLines] at hl; simp [hl]
  | cons c cs ih =>
    intro l hl
    unfold splitLines at hl
    by_cases hc : c = '\n'
    · simp [hc] at hl
      rcases hl with h | h
      · simp [h]
      · exact ih l h
    · simp [hc] at hl
      cases h : splitLines cs with
      | nil => exact absurd h (splitLines_ne_nil cs)
      | cons t ts =>
        rw [h] at hl
        simp at hl
        rcases hl with ⟨rfl⟩ | hmem
        · intro hin
          rcases List.mem_cons.mp hin with h1 | h1
          · exact hc h1.symm
          · exact ih t (by simp [h]) h1
        · exact ih l (by simp [h, hmem])

theorem splitLines_append_newline (a t : Str) (ha : '\n' ∉ a) :
    splitLines (a ++ '\n' :: t) = a :: splitLines t := by
  induction a with
  | nil => simp [splitLines]
  | cons c cs ih =>
    have hc : c ≠ '\n' := fun h => ha (by simp [h])
    have hcs : '\n' ∉ cs := fun h => ha (by simp [h])
    simp only [List.cons_append]
    rw [splitLines, if_neg hc, ih hcs]

theorem splitLines_of_no_newline (a : Str) (ha : '\n' ∉ a) :
    splitLines a = [a] := by
  induction a with
  | nil => simp [splitLines]
  | cons c cs ih =>
    have hc : c ≠ '\n' := fun h => ha (by simp [h])
    have hcs : '\n' ∉ cs := fun h => ha (by simp [h])
    unfold splitLines
    rw [if_neg hc, ih hcs]

theorem splitLines_joinLines (ls : List Str) (hne : ls ≠ [])
    (h : ∀ l ∈ ls, '\n' ∉ l) : splitLines (joinLines ls) = ls := by
  induction ls with
  | nil => exact absurd rfl hne
  | cons l ls ih =>
    cases ls with
    | nil =>
      simp only [joinLines]
      exact splitLines_of_no_newline l (h l (by simp))
    | cons m ms =>
      have : joinLines (l :: m :: ms) = l ++ '\n' :: joinLines (m :: ms) := rfl
      rw [this, splitLines_append_newline l _ (h l (by simp))]
      rw [ih (by simp) (fun x hx => h x (by simp [hx]))]

theorem head?_dropWhile_false (p : Char → Bool) (l : Str) (c : Char)
    (h : (l.dropWhile p).head? = some c) : p c = false := by
  induction l with
  | nil => simp [List.dropWhile] at h
  | cons a as ih =>
    rw [List.dropWhile_cons] at h
    split at h
    · exact ih h
    · simp at h
      subst h
      simp_all

theorem dropWhile_eq_self_of_head (p : Char → Bool) (l : Str)
    (h : ∀ c, l.head? = some c → p c = false) : l.dropWhile p = l := by
  cases l with
  | nil => rfl
  | cons a as =>
    rw [List.dropWhile_cons, if_neg]
    simp [h a rfl]

theorem mem_trim (s : Str) (c : Char) (h : c ∈ trim s) : c ∈ s := by
  unfold trim at h
  rw [List.mem_reverse] at h
  have h1 := (List.dropWhile_suffix isSpaceChar).sublist.mem h
  rw [List.mem_reverse] at h1
  exact (List.dropWhile_suffix isSpaceChar).sublist.mem h1

theorem trim_head?_false (s : Str) (c : Char) (h : (trim s).head? = some c) :
    isSpaceChar c = false := by
  unfold trim at h
  rw [List.head?_reverse] at h
  rcases List.dropWhile_suffix (l := (s.dropWhile isSpaceChar).reverse) isSpaceChar with ⟨t, ht⟩
  have hne : (s.dropWhile isSpaceChar).reverse.dropWhile isSpaceChar ≠ [] := by
    intro hnil
    rw [hnil] at h
    simp at h
  have hx : ((s.dropWhile isSpaceChar).reverse).getLast? = some c := by
    rw [← ht, List.getLast?_append_of_ne_nil t hne]
    exact h
  rw [List.getLast?_reverse] at hx
  exact head?_dropWhile_false _ _ _ hx

theorem trim_getLast?_false (s : Str) (c : Char) (h : (trim s).getLast? = some c) :
    isSpaceChar c = false := by
  unfold trim at h
  rw [List.getLast?_reverse] at h
  exact head?_dropWhile_false _ _ _ h

theorem trim_eq_self (s : Str)
    (h1 : ∀ c, s.head? = some c → isSpaceChar c = false)
    (h2 : ∀ c, s.getLast? = some c → isSpaceChar c = false) : trim s = s := by
  unfold trim
  rw [dropWhile_eq_self_of_head _ _ h1]
  rw [dropWhile_eq_self_of_head _ _ (fun c hc => h2 c (by rwa [List.head?_reverse] at hc))]
  exact List.reverse_reverse s

theorem trim_idem (s : Str) : trim (trim s) = trim s :=
  trim_eq_self (trim s) (trim_head?_false s) (trim_getLast?_false s)

/-- Split a string at the first occurrence of a character, returning the
pieces before and after it (the character itself removed). -/
def breakAtFirst (ch : Char) : Str → Option (Str × Str)
  | [] => none
  | c :: cs =>
    if c = ch then some ([], cs)
    else (breakAtFirst ch cs).map (fun p => (c :: p.1, p.2))

/-- Split a string at the last occurrence of a character. -/
def breakAtLast (ch : Char) (l : Str) : Option (Str × Str) :=
  match breakAtFirst ch l.reverse with
  | none => none
  | some (a, b) => some (b.reverse, a.reverse)

theorem breakAtFirst_eq_none (ch : Char) (l : Str) (h : ch ∉ l) :
    breakAtFirst ch l = none := by
  induction l with
  | nil => rfl
  | cons c cs ih =>
    unfold breakAtFirst
    rw [if_neg (fun hc => h (by simp [hc]))]
    rw [ih (fun hc => h (by simp [hc]))]
    rfl

theorem breakAtFirst_append (ch : Char) (a b : Str) (h : ch ∉ a) :
    breakAtFirst ch (a ++ ch :: b) = some (a, b) := by
  induction a with
  | nil => simp [breakAtFirst]
  | cons c cs ih =>
    simp only [List.cons_append]
    unfold breakAtFirst
    rw [if_neg (fun hc => h (by simp [hc]))]
    rw [ih (fun hc => h (by simp [hc]))]
    rfl

theorem breakAtFirst_shape (ch : Char) (l a b : Str)
    (h : breakAtFirst ch l = some (a, b)) : l = a ++ ch :: b ∧ ch ∉ a := by
  induction l generalizing a b with
  | nil => simp [breakAtFirst] at h
  | cons c cs ih =>
    unfold breakAtFirst at h
    by_cases hc : c = ch
    · rw [if_pos hc] at h
      simp at h
      subst_vars
      simp_all
    · rw [if_neg hc] at h
      cases hb : breakAtFirst ch cs with
      | none => rw [hb] at h; simp at h
      | some p =>
        cases p with
        | mk x y =>
          rw [hb] at h
          simp at h
          obtain ⟨h1, h2⟩ := h
          rcases ih x y hb with ⟨hs, hn⟩
          subst h1
          subst h2
          refine ⟨by rw [hs]; rfl, ?_⟩
          intro hmem
          rcases List.mem_cons.mp hmem with hh | hh
          · exact hc hh.symm
          · exact hn hh

theorem breakAtLast_eq_none (ch : Char) (l : Str) (h : ch ∉ l) :
    breakAtLast ch l = none := by
  unfold breakAtLast
  rw [breakAtFirst_eq_none ch l.reverse (by simpa using h)]

theorem breakAtLast_append (ch : Char) (a b : Str) (h : ch ∉ b) :
    breakAtLast ch (a ++ ch :: b) = some (a, b) := by
  unfold breakAtLast
  have : (a ++ ch :: b).reverse = b.reverse ++ ch :: a.reverse := by
    simp
  rw [this, breakAtFirst_append ch _ _ (by simpa using h)]
  simp

theorem breakAtLast_shape (ch : Char) (l a b : Str)
    (h : breakAtLast ch l = some (a, b)) : l = a ++ ch :: b ∧ ch ∉ b := by
  unfold breakAtLast at h
  cases hb : breakAtFirst ch l.reverse with
  | none => rw [hb] at h; simp at h
  | some p =>
    rw [hb] at h
    simp at h
    rcases h with ⟨h1, h2⟩
    rcases breakAtFirst_shape ch l.reverse p.1 p.2 (by rw [hb]) with ⟨hs, hn⟩
    constructor
    · have := congrArg List.reverse hs
      simp at this
      rw [this, ← h1, ← h2]
    · rw [← h2]
      simpa using hn

/-- Decimal digit characters. -/
def isDigitChar (c : Char) : Bool :=
  c = '0' || c = '1' || c = '2' || c = '3' || c = '4' ||
  c = '5' || c = '6' || c = '7' || c = '8' || c = '9'

/-- Character for a single decimal digit. -/
def digitChar (n : Nat) : Char :=
  if n = 0 then '0' else if n = 1 then '1' else if n = 2 then '2'
  else if n = 3 then '3' else if n = 4 then '4' else if n = 5 then '5'
  else if n = 6 then '6' else if n = 7 then '7' else if n = 8 then '8'
  else '9'

/-- Numeric value of a decimal digit character. -/
def charVal (c : Char) : Nat :=
  if c = '0' then 0 else if c = '1' then 1 else if c = '2' then 2
  else if c = '3' then 3 else if c = '4' then 4 else if c = '5' then 5
  else if c = '6' then 6 else if c = '7' then 7 else if c = '8' then 8
  else 9

/-- Decimal rendering of a natural number, as `Number.prototype.toString`
does for a nonnegative integer. -/
def natToDigits (n : Nat) : Str :=
  if h : n < 10 then [digitChar n]
  else natToDigits (n / 10) ++ [digitChar (n % 10)]
termination_by n
decreasing_by exact Nat.div_lt_self (by omega) (by omega)

/-- Numeric value of a string of decimal digit characters. -/
def digitsToNat (s : Str) : Nat :=
  s.foldl (fun a c => 10 * a + charVal c) 0

theorem charVal_digitChar (n : Nat) (h : n < 10) : charVal (digitChar n) = n := by
  interval_cases n <;> decide

theorem isDigitChar_digitChar (n : Nat) (h : n < 10) :
    isDigitChar (digitChar n) = true := by
  interval_cases n <;> decide

theorem digitsToNat_snoc (s : Str) (c : Char) :
    digitsToNat (s ++ [c]) = 10 * digitsToNat s + charVal c := by
  unfold digitsToNat
  rw [List.foldl_append]
  rfl

theorem natToDigits_ne_nil (n : Nat) : natToDigits n ≠ [] := by
  rw [natToDigits]
  split
  · simp
  · simp

theorem natToDigits_all_digits (n : Nat) :
    ∀ c ∈ natToDigits n, isDigitChar c = true := by
  induction n using Nat.strong_induction_on with
  | _ n ih =>
    rw [natToDigits]
    split
    · intro c hc
      simp at hc
      subst hc
      exact isDigitChar_digitChar n (by omega)
    · intro c hc
      rcases List.mem_append.mp hc with h1 | h1
      · exact ih (n / 10) (Nat.div_lt_self (by omega) (by omega)) c h1
      · simp at h1
        subst h1
        exact isDigitChar_digitChar (n % 10) (Nat.mod_lt n (by omega))

theorem digitsToNat_natToDigits (n : Nat) :
    digitsToNat (natToDigits n) = n := by
  induction n using Nat.strong_induction_on with
  | _ n ih =>
    rw [natToDigits]
    split
    · rename_i h
      show digitsToNat [digitChar n] = n
      unfold digitsToNat
      simp [List.foldl]
      exact charVal_digitChar n h
    · rename_i h
      rw [digitsToNat_snoc]
      rw [ih (n / 10) (Nat.div_lt_self (by omega) (by omega))]
      rw [charVal_digitChar (n % 10) (Nat.mod_lt n (by omega))]
      omega

/-- Lower-case ASCII letter test. -/
def isLowerAlpha (c : Char) : Bool := 'a' ≤ c && c ≤ 'z'

/-- ASCII letter test (either case). -/
def isAlphaChar (c : Char) : Bool := isLowerAlpha (lowerChar c)

/-- Characters allowed in a URL scheme after the first letter. -/
def isSchemeChar (c : Char) : Bool :=
  isAlphaChar c || isDigitChar c || c = '+' || c = '-' || c = '.'

/-- Characters accepted in a registrable host name by the model. -/
def isHostChar (c : Char) : Bool :=
  isAlphaChar c || isDigitChar c || c = '-' || c = '.' || c = '_'

/-- Characters terminating the authority section. -/
def isAuthDelim (c : Char) : Bool := c = '/' || c = '?' || c = '#'

/-- Characters terminating the path section. -/
def isPQDelim (c : Char) : Bool := c = '?' || c = '#'

/-- String with no whitespace characters. -/
def noSpace (s : Str) : Bool := s.all (fun c => !isSpaceChar c)

theorem lowerChar_spec (c : Char) :
    lowerChar c = c ∨ (c, lowerChar c) ∈ lowerTable := by
  unfold lowerChar
  cases h : lowerTable.find? (fun p => p.1 == c) with
  | none => exact Or.inl rfl
  | some p =>
    right
    have hp := List.mem_of_find?_eq_some h
    have he := List.find?_some h
    simp at he
    rw [← he]
    simpa using hp

/-- Case analysis principle used to transfer decidable per-character facts
across ASCII lower-casing. -/
theorem lowerChar_table_cases {motive : Char → Char → Prop} (c : Char)
    (hfix : lowerChar c = c → motive c c)
    (htab : ∀ p ∈ lowerTable, motive p.1 p.2) : motive c (lowerChar c) := by
  rcases lowerChar_spec c with h | h
  · rw [h]; exact hfix h
  · exact htab _ h

theorem isSchemeChar_lowerChar (c : Char) :
    isSchemeChar (lowerChar c) = isSchemeChar c := by
  refine lowerChar_table_cases (motive := fun a b => isSchemeChar b = isSchemeChar a) c ?_ (by decide)
  intro _; rfl

theorem isHostChar_lowerChar (c : Char) :
    isHostChar (lowerChar c) = isHostChar c := by
  refine lowerChar_table_cases (motive := fun a b => isHostChar b = isHostChar a) c ?_ (by decide)
  intro _; rfl

theorem isAlphaChar_lowerChar (c : Char) :
    isAlphaChar (lowerChar c) = isAlphaChar c := by
  unfold isAlphaChar
  rw [lowerChar_idem]

theorem isSpaceChar_cases (c : Char) (h : isSpaceChar c = true) :
    c = ' ' ∨ c = '\t' ∨ c = '\n' ∨ c = '\r' ∨ c = '\x0b' ∨ c = '\x0c' := by
  simp [isSpaceChar] at h
  tauto

theorem isDigitChar_cases (c : Char) (h : isDigitChar c = true) :
    c = '0' ∨ c = '1' ∨ c = '2' ∨ c = '3' ∨ c = '4' ∨
    c = '5' ∨ c = '6' ∨ c = '7' ∨ c = '8' ∨ c = '9' := by
  simp [isDigitChar] at h
  tauto


theorem isAuthDelim_cases (c : Char) (h : isAuthDelim c = true) :
    c = '/' ∨ c = '?' ∨ c = '#' := by
  simp [isAuthDelim] at h
  tauto

theorem isPQDelim_cases (c : Char) (h : isPQDelim c = true) :
    c = '?' ∨ c = '#' := by
  simp [isPQDelim] at h
  tauto

theorem isHostChar_elim (c : Char) (h : isHostChar c = true) :
    isAlphaChar c = true ∨ isDigitChar c = true ∨ c = '-' ∨ c = '.' ∨ c = '_' := by
  have := h
  simp only [isHostChar, Bool.or_eq_true, decide_eq_true_eq] at this
  tauto

theorem isSchemeChar_elim (c : Char) (h : isSchemeChar c = true) :
    isAlphaChar c = true ∨ isDigitChar c = true ∨ c = '+' ∨ c = '-' ∨ c = '.' := by
  have := h
  simp only [isSchemeChar, Bool.or_eq_true, decide_eq_true_eq] at this
  tauto

theorem alpha_ne_concrete (c k : Char) (h : isAlphaChar c = true)
    (hk : isAlphaChar k = false) : c ≠ k := by
  intro he
  rw [he, hk] at h
  exact Bool.noConfusion h

theorem digit_ne_concrete (c k : Char) (h : isDigitChar c = true)
    (hk : isDigitChar k = false) : c ≠ k := by
  intro he
  rw [he, hk] at h
  exact Bool.noConfusion h

theorem alpha_not_space (c : Char) (h : isAlphaChar c = true) :
    isSpaceChar c = false := by
  by_cases hs : isSpaceChar c = true
  · rcases isSpaceChar_cases c hs with h6 | h6 | h6 | h6 | h6 | h6 <;>
      (subst h6; exact absurd h (by decide))
  · simpa using hs

theorem digit_not_space (c : Char) (h : isDigitChar c = true) :
    isSpaceChar c = false := by
  rcases isDigitChar_cases c h with h10 | h10 | h10 | h10 | h10 | h10 | h10 | h10 | h10 | h10 <;>
    (subst h10; decide)

theorem alpha_not_authDelim (c : Char) (h : isAlphaChar c = true) :
    isAuthDelim c = false := by
  by_cases hx : isAuthDelim c = true
  · rcases isAuthDelim_cases c hx with he | he | he <;>
      (subst he; exact absurd h (by decide))
  · simpa using hx

theorem digit_not_authDelim (c : Char) (h : isDigitChar c = true) :
    isAuthDelim c = false := by
  rcases isDigitChar_cases c h with h10 | h10 | h10 | h10 | h10 | h10 | h10 | h10 | h10 | h10 <;>
    (subst h10; decide)

theorem isHostChar_props (c : Char) (h : isHostChar c = true) :
    isAuthDelim c = false ∧ c ≠ ':' ∧ c ≠ '@' ∧ isSpaceChar c = false := by
  rcases isHostChar_elim c h with h5 | h5 | h5 | h5 | h5
  · exact ⟨alpha_not_authDelim c h5, alpha_ne_concrete c ':' h5 (by decide),
      alpha_ne_concrete c '@' h5 (by decide), alpha_not_space c h5⟩
  · exact ⟨digit_not_authDelim c h5, digit_ne_concrete c ':' h5 (by decide),
      digit_ne_concrete c '@' h5 (by decide), digit_not_space c h5⟩
  all_goals subst h5; exact ⟨by decide, by decide, by decide, by decide⟩

theorem isDigitChar_props (c : Char) (h : isDigitChar c = true) :
    isAuthDelim c = false ∧ c ≠ ':' ∧ c ≠ '@' ∧ isSpaceChar c = false := by
  exact ⟨digit_not_authDelim c h, digit_ne_concrete c ':' h (by decide),
    digit_ne_concrete c '@' h (by decide), digit_not_space c h⟩

theorem isSchemeChar_props (c : Char) (h : isSchemeChar c = true) :
    c ≠ ':' ∧ isSpaceChar c = false := by
  rcases isSchemeChar_elim c h with h5 | h5 | h5 | h5 | h5
  · exact ⟨alpha_ne_concrete c ':' h5 (by decide), alpha_not_space c h5⟩
  · exact ⟨digit_ne_concrete c ':' h5 (by decide), digit_not_space c h5⟩
  all_goals subst h5; exact ⟨by decide, by decide⟩

/-- Record of a parsed absolute URL, modelling the components exposed by
the WHATWG `URL` object used in App.tsx: `protocol` (scheme), userinfo,
`hostname` (host), `port`, `pathname` (path), `search` (query) and
`hash` (frag).  `port = none` means the default port for the scheme. -/
structure URLRecord where
  scheme : Str
  userinfo : Option Str
  host : Str
  port : Option Nat
  path : Str
  query : Option Str
  frag : Option Str
deriving DecidableEq, Repr

/-- Default port omitted by the WHATWG serializer for special schemes. -/
def defaultPort (scheme : Str) : Option Nat :=
  if scheme = "http".toList then some 80
  else if scheme = "ws".toList then some 80
  else if scheme = "https".toList then some 443
  else if scheme = "wss".toList then some 443
  else if scheme = "ftp".toList then some 21
  else none

/-- Scan the scheme up to the first colon; fails when a non-scheme
character is hit first or no colon exists. -/
def schemeSplit : Str → Option (Str × Str)
  | [] => none
  | c :: cs =>
    if c = ':' then some ([], cs)
    else if isSchemeChar c then (schemeSplit cs).map (fun p => (c :: p.1, p.2))
    else none

/-- Parse a (possibly empty) port string appearing after the host colon;
`some port` on success, `none` when `new URL` would throw. -/
def parsePortStr (scheme : Str) (ds : Str) : Option (Option Nat) :=
  if ds = [] then some none
  else if ds.all isDigitChar then
    let v := digitsToNat ds
    if v < 65536 then
      if defaultPort scheme = some v then some none else some (some v)
    else none
  else none

/-- Parse and validate the host[:port] section; hosts are lower-cased as
the WHATWG host parser does. -/
def parseHostPort (scheme : Str) (hostport : Str) : Option (Str × Option Nat) :=
  match breakAtFirst ':' hostport with
  | none =>
    if hostport = [] then none
    else if hostport.all isHostChar then some (lowerStr hostport, none)
    else none
  | some (h, ds) =>
    if h = [] then none
    else if h.all isHostChar then
      match parsePortStr scheme ds with
      | none => none
      | some port => some (lowerStr h, port)
    else none

/-- Empty paths serialize as the root path, as in the WHATWG serializer. -/
def normPath (p : Str) : Str := if p = [] then ['/'] else p

/-- Parse query and fragment from the text after the path. -/
def pqTail : Str → Option (Option Str × Option Str)
  | '?' :: r2 =>
    if noSpace (r2.takeWhile (fun c => !(c = '#'))) then
      match r2.dropWhile (fun c => !(c = '#')) with
      | '#' :: f =>
        if noSpace f then
          some (some (r2.takeWhile (fun c => !(c = '#'))), some f)
        else none
      | _ => some (some (r2.takeWhile (fun c => !(c = '#'))), none)
    else none
  | '#' :: f => if noSpace f then some (none, some f) else none
  | _ => some (none, none)

/-- Parse path, query and fragment from the text after the authority. -/
def parsePathQF (tail : Str) : Option (Str × Option Str × Option Str) :=
  if noSpace (tail.takeWhile (fun c => !isPQDelim c)) then
    match pqTail (tail.dropWhile (fun c => !isPQDelim c)) with
    | none => none
    | some (query, frag) =>
      some (normPath (tail.takeWhile (fun c => !isPQDelim c)), query, frag)
  else none

/-- Assemble a record from the validated host/port section and the
path/query/fragment section. -/
def parseHP (scheme : Str) (ui : Option Str) (hostport tail : Str) :
    Option URLRecord :=
  match parseHostPort scheme hostport with
  | none => none
  | some (host, port) =>
    match parsePathQF tail with
    | none => none
    | some (path, query, frag) => some ⟨scheme, ui, host, port, path, query, frag⟩

/-- Split the authority at the last `@` into userinfo and host[:port];
an empty userinfo is dropped, as the WHATWG parser does. -/
def parseAuth (scheme auth tail : Str) : Option URLRecord :=
  match breakAtLast '@' auth with
  | none => parseHP scheme none auth tail
  | some (u, hp) =>
    if u = [] then parseHP scheme none hp tail
    else if noSpace u then parseHP scheme (some u) hp tail
    else none

/-- Parse the remainder after `scheme:`; only the hierarchical
`//authority/...` form is modelled. -/
def parseAfterScheme (scheme : Str) (rest : Str) : Option URLRecord :=
  match rest with
  | '/' :: '/' :: r =>
    parseAuth scheme (r.takeWhile (fun c => !isAuthDelim c))
      (r.dropWhile (fun c => !isAuthDelim c))
  | _ => none

/-- Model of `new URL(s)` for absolute URLs in serialized form, returning
`none` where the constructor throws.  Restrictions against the full
WHATWG algorithm: only the `scheme://...` hierarchical form is accepted,
hosts are restricted to registrable-name characters, and characters that
the browser would percent-encode or strip (whitespace, control
characters) are treated as parse failures, so the modelled fragment is
closed under re-serialization. -/
def parseURL (s : Str) : Option URLRecord :=
  match s with
  | [] => none
  | c0 :: _ =>
    if isAlphaChar c0 then
      match schemeSplit s with
      | none => none
      | some (rawScheme, rest) => parseAfterScheme (lowerStr rawScheme) rest
    else none

/-- Serializer pieces. -/
def serializeUI : Option Str → Str
  | none => []
  | some u => u ++ ['@']

def serializePort : Option Nat → Str
  | none => []
  | some p => ':' :: natToDigits p

def serializeQuery : Option Str → Str
  | none => []
  | some q => '?' :: q

def serializeFrag : Option Str → Str
  | none => []
  | some f => '#' :: f

/-- Model of `url.toString()`: the WHATWG URL serializer on the modelled
components. -/
def serializeURL (u : URLRecord) : Str :=
  u.scheme ++ ':' :: '/' :: '/' ::
    (serializeUI u.userinfo ++ u.host ++ serializePort u.port ++
     u.path ++ serializeQuery u.query ++ serializeFrag u.frag)

/-- Validity of a string as a registrable host name, as accepted by the
`hostname` setter. -/
def validHostStr (h : Str) : Bool := !h.isEmpty && h.all isHostChar

/-- Model of the `url.hostname = h` setter: parse the host and replace it
on success, silently keep the URL unchanged on failure. -/
def setHostname (u : URLRecord) (h : Str) : URLRecord :=
  if validHostStr h then { u with host := lowerStr h } else u

/-- Invariant satisfied by every record produced by `parseURL`, strong
enough to re-parse its serialization. -/
def wellFormedURL (u : URLRecord) : Prop :=
  u.scheme ≠ [] ∧
  (∀ c, u.scheme.head? = some c → isLowerAlpha c = true) ∧
  (∀ c ∈ u.scheme, isSchemeChar c = true ∧ lowerChar c = c) ∧
  (∀ ui, u.userinfo = some ui → ui ≠ [] ∧
    ∀ c ∈ ui, isAuthDelim c = false ∧ isSpaceChar c = false) ∧
  u.host ≠ [] ∧
  (∀ c ∈ u.host, isHostChar c = true ∧ lowerChar c = c) ∧
  (∀ p, u.port = some p → p < 65536 ∧ defaultPort u.scheme ≠ some p) ∧
  u.path ≠ [] ∧
  (∀ c, u.path.head? = some c → c = '/') ∧
  (∀ c ∈ u.path, isPQDelim c = false ∧ isSpaceChar c = false) ∧
  (∀ q, u.query = some q → ∀ c ∈ q, c ≠ '#' ∧ isSpaceChar c = false) ∧
  (∀ f, u.frag = some f → ∀ c ∈ f, isSpaceChar c = false)

theorem head?_mem {l : Str} {c : Char} (h : l.head? = some c) : c ∈ l := by
  cases l with
  | nil => simp at h
  | cons a as => simp at h; simp [h]

theorem takeWhile_append_all (p : Char → Bool) (l1 l2 : Str)
    (h1 : ∀ c ∈ l1, p c = true) (h2 : ∀ c, l2.head? = some c → p c = false) :
    (l1 ++ l2).takeWhile p = l1 := by
  induction l1 with
  | nil =>
    cases l2 with
    | nil => rfl
    | cons a as =>
      simp only [List.nil_append, List.takeWhile_cons]
      rw [h2 a rfl]
      simp
  | cons c cs ih =>
    simp only [List.cons_append, List.takeWhile_cons]
    rw [h1 c (by simp)]
    rw [ih (fun x hx => h1 x (by simp [hx]))]
    simp

theorem dropWhile_append_all (p : Char → Bool) (l1 l2 : Str)
    (h1 : ∀ c ∈ l1, p c = true) (h2 : ∀ c, l2.head? = some c → p c = false) :
    (l1 ++ l2).dropWhile p = l2 := by
  induction l1 with
  | nil =>
    cases l2 with
    | nil => rfl
    | cons a as =>
      simp only [List.nil_append, List.dropWhile_cons]
      rw [h2 a rfl]
      simp
  | cons c cs ih =>
    simp only [List.cons_append, List.dropWhile_cons]
    rw [h1 c (by simp)]
    simpa using ih (fun x hx => h1 x (by simp [hx]))

theorem schemeSplit_append (sch rest : Str)
    (h : ∀ c ∈ sch, isSchemeChar c = true) :
    schemeSplit (sch ++ ':' :: rest) = some (sch, rest) := by
  induction sch with
  | nil => simp [schemeSplit]
  | cons c cs ih =>
    have hc := h c (by simp)
    simp only [List.cons_append]
    unfold schemeSplit
    rw [if_neg (isSchemeChar_props c hc).1, if_pos hc]
    rw [ih (fun x hx => h x (by simp [hx]))]
    rfl

theorem schemeSplit_shape (s raw rest : Str)
    (h : schemeSplit s = some (raw, rest)) :
    s = raw ++ ':' :: rest ∧ ∀ c ∈ raw, isSchemeChar c = true := by
  induction s generalizing raw rest with
  | nil => simp [schemeSplit] at h
  | cons c cs ih =>
    unfold schemeSplit at h
    by_cases hc : c = ':'
    · rw [if_pos hc] at h
      simp at h
      obtain ⟨h1, h2⟩ := h
      subst hc
      subst h1
      subst h2
      simp
    · rw [if_neg hc] at h
      by_cases hs : isSchemeChar c
      · rw [if_pos hs] at h
        cases hb : schemeSplit cs with
        | none => rw [hb] at h; simp at h
        | some p =>
          cases p with
          | mk x y =>
            rw [hb] at h
            simp at h
            obtain ⟨h1, h2⟩ := h
            rcases ih x y hb with ⟨hsh, hall⟩
            subst h1
            subst h2
            refine ⟨by rw [hsh]; rfl, ?_⟩
            intro a ha
            rcases List.mem_cons.mp ha with ha | ha
            · subst ha; exact hs
            · exact hall a ha
      · rw [if_neg hs] at h
        simp at h

theorem parsePortStr_wf (scheme ds : Str) (port : Option Nat)
    (h : parsePortStr scheme ds = some port) :
    ∀ p, port = some p → p < 65536 ∧ defaultPort scheme ≠ some p := by
  unfold parsePortStr at h
  by_cases h0 : ds = []
  · rw [if_pos h0] at h
    simp at h
    subst h
    intro p hp
    simp at hp
  · rw [if_neg h0] at h
    by_cases hd : ds.all isDigitChar
    · rw [if_pos hd] at h
      simp only [] at h
      by_cases hv : digitsToNat ds < 65536
      · rw [if_pos hv] at h
        by_cases hdef : defaultPort scheme = some (digitsToNat ds)
        · rw [if_pos hdef] at h
          simp at h
          subst h
          intro p hp
          simp at hp
        · rw [if_neg hdef] at h
          simp at h
          subst h
          intro p hp
          simp at hp
          subst hp
          exact ⟨hv, hdef⟩
      · rw [if_neg hv] at h
        simp at h
    · rw [if_neg hd] at h
      simp at h

theorem mem_lowerStr (s : Str) (c : Char) (h : c ∈ lowerStr s) :
    ∃ c0 ∈ s, c = lowerChar c0 := by
  unfold lowerStr at h
  rcases List.mem_map.mp h with ⟨c0, hc0, he⟩
  exact ⟨c0, hc0, he.symm⟩

theorem lowerStr_hostChars (s : Str) (hall : s.all isHostChar = true) :
    ∀ c ∈ lowerStr s, isHostChar c = true ∧ lowerChar c = c := by
  intro c hc
  rcases mem_lowerStr s c hc with ⟨c0, hc0, he⟩
  subst he
  constructor
  · rw [isHostChar_lowerChar]
    exact List.all_eq_true.mp hall c0 hc0
  · exact lowerChar_idem c0

theorem parseHostPort_wf (scheme hostport : Str) (host : Str) (port : Option Nat)
    (h : parseHostPort scheme hostport = some (host, port)) :
    host ≠ [] ∧ (∀ c ∈ host, isHostChar c = true ∧ lowerChar c = c) ∧
    (∀ p, port = some p → p < 65536 ∧ defaultPort scheme ≠ some p) := by
  unfold parseHostPort at h
  split at h
  · by_cases h0 : hostport = []
    · rw [if_pos h0] at h
      simp at h
    · rw [if_neg h0] at h
      by_cases hall : hostport.all isHostChar
      · rw [if_pos hall] at h
        simp at h
        obtain ⟨h1, h2⟩ := h
        subst h1
        subst h2
        refine ⟨by simp [lowerStr, h0], lowerStr_hostChars hostport hall, ?_⟩
        intro p hp
        simp at hp
      · rw [if_neg hall] at h
        simp at h
  · next hr ds heq =>
    by_cases h0 : hr = []
    · rw [if_pos h0] at h
      simp at h
    · rw [if_neg h0] at h
      by_cases hall : hr.all isHostChar
      · rw [if_pos hall] at h
        cases hps : parsePortStr scheme ds with
        | none => rw [hps] at h; simp at h
        | some port2 =>
          rw [hps] at h
          simp at h
          obtain ⟨h1, h2⟩ := h
          subst h1
          subst h2
          exact ⟨by simp [lowerStr, h0], lowerStr_hostChars hr hall,
            parsePortStr_wf scheme ds port2 hps⟩
      · rw [if_neg hall] at h
        simp at h

theorem noSpace_mem (s : Str) (h : noSpace s = true) :
    ∀ c ∈ s, isSpaceChar c = false := by
  intro c hc
  have := List.all_eq_true.mp h c hc
  simpa using this

theorem pqTail_wf (r : Str) (query frag : Option Str)
    (h : pqTail r = some (query, frag)) :
    (∀ q, query = some q → ∀ c ∈ q, c ≠ '#' ∧ isSpaceChar c = false) ∧
    (∀ f, frag = some f → ∀ c ∈ f, isSpaceChar c = false) := by
  unfold pqTail at h
  split at h
  · next r2 =>
    by_cases hq : noSpace (r2.takeWhile (fun c => !(c = '#')))
    · rw [if_pos hq] at h
      split at h
      · next f heq =>
        by_cases hf : noSpace f
        · rw [if_pos hf] at h
          simp at h
          obtain ⟨h1, h2⟩ := h
          subst h1
          subst h2
          constructor
          · intro q hq2 c hc
            simp at hq2
            subst hq2
            refine ⟨?_, noSpace_mem _ hq c hc⟩
            have := List.mem_takeWhile_imp hc
            simpa using this
          · intro f2 hf2 c hc
            simp at hf2
            subst hf2
            exact noSpace_mem _ hf c hc
        · rw [if_neg hf] at h
          simp at h
      · simp at h
        obtain ⟨h1, h2⟩ := h
        subst h1
        subst h2
        constructor
        · intro q hq2 c hc
          simp at hq2
          subst hq2
          refine ⟨?_, noSpace_mem _ hq c hc⟩
          have := List.mem_takeWhile_imp hc
          simpa using this
        · intro f2 hf2
          simp at hf2
    · rw [if_neg hq] at h
      simp at h
  · next f =>
    by_cases hf : noSpace f
    · rw [if_pos hf] at h
      simp at h
      obtain ⟨h1, h2⟩ := h
      subst h1
      subst h2
      constructor
      · intro q hq2
        simp at hq2
      · intro f2 hf2 c hc
        simp at hf2
        subst hf2
        exact noSpace_mem _ hf c hc
    · rw [if_neg hf] at h
      simp at h
  · simp at h
    obtain ⟨h1, h2⟩ := h
    subst h1
    subst h2
    exact ⟨fun q hq2 => by simp at hq2, fun f2 hf2 => by simp at hf2⟩

theorem parsePathQF_wf (tail : Str) (path : Str) (query frag : Option Str)
    (h : parsePathQF tail = some (path, query, frag))
    (hauth : ∀ c, tail.head? = some c → isAuthDelim c = true) :
    path ≠ [] ∧ (∀ c, path.head? = some c → c = '/') ∧
    (∀ c ∈ path, isPQDelim c = false ∧ isSpaceChar c = false) ∧
    (∀ q, query = some q → ∀ c ∈ q, c ≠ '#' ∧ isSpaceChar c = false) ∧
    (∀ f, frag = some f → ∀ c ∈ f, isSpaceChar c = false) := by
  unfold parsePathQF at h
  by_cases hns : noSpace (tail.takeWhile (fun c => !isPQDelim c))
  · rw [if_pos hns] at h
    split at h
    · simp at h
    · next query2 frag2 heq =>
      simp at h
      obtain ⟨h1, h2, h3⟩ := h
      subst h1
      subst h2
      subst h3
      rcases pqTail_wf _ _ _ heq with ⟨hq, hf⟩
      refine ⟨?_, ?_, ?_, hq, hf⟩
      · unfold normPath
        split
        · simp
        · next hne => exact hne
      · intro c hc
        unfold normPath at hc
        split at hc
        · simp at hc
          exact hc.symm
        · next hne =>
          cases htail : tail with
          | nil => subst htail; simp at hc
          | cons t0 ts =>
            subst htail
            rw [List.takeWhile_cons] at hc hne
            by_cases hp0 : isPQDelim t0
            · rw [hp0] at hc hne
              simp at hc hne
            · have hp0f : isPQDelim t0 = false := by simpa using hp0
              rw [hp0f] at hc hne
              simp at hc
              subst hc
              have hau := hauth t0 rfl
              rcases isAuthDelim_cases t0 hau with he | he | he
              · exact he
              · subst he; simp [isPQDelim] at hp0f
              · subst he; simp [isPQDelim] at hp0f
      · intro c hc
        unfold normPath at hc
        split at hc
        · simp at hc
          subst hc
          exact ⟨by decide, by decide⟩
        · exact ⟨by simpa using List.mem_takeWhile_imp hc, noSpace_mem _ hns c hc⟩
  · rw [if_neg hns] at h
    simp at h

theorem parseHP_wf (sch : Str) (ui : Option Str) (hostport tail : Str) (u : URLRecord)
    (h : parseHP sch ui hostport tail = some u)
    (hsch1 : sch ≠ [])
    (hsch2 : ∀ c, sch.head? = some c → isLowerAlpha c = true)
    (hsch3 : ∀ c ∈ sch, isSchemeChar c = true ∧ lowerChar c = c)
    (hui : ∀ x, ui = some x → x ≠ [] ∧ ∀ c ∈ x, isAuthDelim c = false ∧ isSpaceChar c = false)
    (htail : ∀ c, tail.head? = some c → isAuthDelim c = true) :
    wellFormedURL u := by
  unfold parseHP at h
  split at h
  · simp at h
  · next host port heq =>
    split at h
    · simp at h
    · next path query frag heq2 =>
      simp at h
      subst h
      rcases parseHostPort_wf sch hostport host port heq with ⟨hh1, hh2, hh3⟩
      rcases parsePathQF_wf tail path query frag heq2 htail with ⟨hp1, hp2, hp3, hp4, hp5⟩
      unfold wellFormedURL
      exact ⟨hsch1, hsch2, hsch3, hui, hh1, hh2, hh3, hp1, hp2, hp3, hp4, hp5⟩

theorem parseAuth_wf (sch auth tail : Str) (u : URLRecord)
    (h : parseAuth sch auth tail = some u)
    (hsch1 : sch ≠ [])
    (hsch2 : ∀ c, sch.head? = some c → isLowerAlpha c = true)
    (hsch3 : ∀ c ∈ sch, isSchemeChar c = true ∧ lowerChar c = c)
    (hac : ∀ c ∈ auth, isAuthDelim c = false)
    (htail : ∀ c, tail.head? = some c → isAuthDelim c = true) :
    wellFormedURL u := by
  unfold parseAuth at h
  split at h
  · exact parseHP_wf sch none auth tail u h hsch1 hsch2 hsch3
      (fun x hx => by simp at hx) htail
  · next u' hp heq =>
    by_cases h0 : u' = []
    · rw [if_pos h0] at h
      exact parseHP_wf sch none hp tail u h hsch1 hsch2 hsch3
        (fun x hx => by simp at hx) htail
    · rw [if_neg h0] at h
      by_cases hnsu : noSpace u'
      · rw [if_pos hnsu] at h
        refine parseHP_wf sch (some u') hp tail u h hsch1 hsch2 hsch3 ?_ htail
        intro x hx
        simp at hx
        subst hx
        refine ⟨h0, ?_⟩
        intro c hc
        rcases breakAtLast_shape '@' auth u' hp heq with ⟨hsh, _⟩
        refine ⟨hac c (by rw [hsh]; simp [hc]), noSpace_mem _ hnsu c hc⟩
      · rw [if_neg hnsu] at h
        simp at h

theorem parseAfterScheme_wf (sch rest : Str) (u : URLRecord)
    (h : parseAfterScheme sch rest = some u)
    (hsch1 : sch ≠ [])
    (hsch2 : ∀ c, sch.head? = some c → isLowerAlpha c = true)
    (hsch3 : ∀ c ∈ sch, isSchemeChar c = true ∧ lowerChar c = c) :
    wellFormedURL u := by
  unfold parseAfterScheme at h
  split at h
  · next r =>
    refine parseAuth_wf sch _ _ u h hsch1 hsch2 hsch3 ?_ ?_
    · intro c hc
      have := List.mem_takeWhile_imp hc
      simpa using this
    · intro c hc
      have := head?_dropWhile_false _ _ _ hc
      simpa using this
  · simp at h

/-- Every record produced by `parseURL` is well-formed. -/
theorem parse_wf (s : Str) (u : URLRecord) (h : parseURL s = some u) :
    wellFormedURL u := by
  unfold parseURL at h
  split at h
  · simp at h
  · next c0 s' =>
    by_cases ha : isAlphaChar c0
    · rw [if_pos ha] at h
      cases hs : schemeSplit (c0 :: s') with
      | none => rw [hs] at h; simp at h
      | some pr =>
        cases pr with
        | mk raw rest =>
          rw [hs] at h
          rcases schemeSplit_shape _ raw rest hs with ⟨hsh, hall⟩
          cases raw with
          | nil =>
            simp at hsh
            obtain ⟨hc0, _⟩ := hsh
            subst hc0
            exact absurd ha (by decide)
          | cons r0 rr =>
            have hc0 : r0 = c0 := by
              simp at hsh
              exact hsh.1.symm
            subst hc0
            refine parseAfterScheme_wf (lowerStr (r0 :: rr)) rest u h ?_ ?_ ?_
            · simp [lowerStr]
            · intro c hc
              simp [lowerStr] at hc
              subst hc
              show isLowerAlpha (lowerChar r0) = true
              exact ha
            · intro c hc
              rcases mem_lowerStr _ c hc with ⟨c1, hc1, he⟩
              subst he
              refine ⟨?_, lowerChar_idem c1⟩
              rw [isSchemeChar_lowerChar]
              exact hall c1 hc1
    · rw [if_neg ha] at h
      simp at h

theorem noSpace_of_mem (s : Str) (h : ∀ c ∈ s, isSpaceChar c = false) :
    noSpace s = true := by
  unfold noSpace
  rw [List.all_eq_true]
  intro c hc
  simp [h c hc]

theorem head?_append_left {l1 l2 : Str} (h : l1 ≠ []) :
    (l1 ++ l2).head? = l1.head? := by
  cases l1 with
  | nil => exact absurd rfl h
  | cons a as => rfl

theorem takeWhile_eq_self_of_all (p : Char → Bool) (l : Str)
    (h : ∀ c ∈ l, p c = true) : l.takeWhile p = l := by
  have := takeWhile_append_all p l [] h (by simp)
  simpa using this

theorem dropWhile_eq_nil_of_all (p : Char → Bool) (l : Str)
    (h : ∀ c ∈ l, p c = true) : l.dropWhile p = [] := by
  have := dropWhile_append_all p l [] h (by simp)
  simpa using this

theorem parseHostPort_serialize (scheme host : Str) (port : Option Nat)
    (hh1 : host ≠ []) (hh2 : ∀ c ∈ host, isHostChar c = true ∧ lowerChar c = c)
    (hh3 : ∀ p, port = some p → p < 65536 ∧ defaultPort scheme ≠ some p) :
    parseHostPort scheme (host ++ serializePort port) = some (host, port) := by
  have hcol : ':' ∉ host := fun hmem =>
    (isHostChar_props ':' ((hh2 ':' hmem).1)).2.1 rfl
  have hostAll : host.all isHostChar = true :=
    List.all_eq_true.mpr (fun c hc => (hh2 c hc).1)
  have hlow : lowerStr host = host :=
    lowerStr_eq_self host (fun c hc => (hh2 c hc).2)
  cases port with
  | none =>
    show parseHostPort scheme (host ++ []) = some (host, none)
    rw [List.append_nil]
    unfold parseHostPort
    rw [breakAtFirst_eq_none ':' host hcol]
    rw [if_neg hh1, if_pos hostAll, hlow]
  | some p =>
    show parseHostPort scheme (host ++ ':' :: natToDigits p) = some (host, some p)
    unfold parseHostPort
    rw [breakAtFirst_append ':' host (natToDigits p) hcol]
    simp only []
    rw [if_neg hh1, if_pos hostAll]
    have hps : parsePortStr scheme (natToDigits p) = some (some p) := by
      unfold parsePortStr
      rw [if_neg (natToDigits_ne_nil p)]
      rw [if_pos (List.all_eq_true.mpr (natToDigits_all_digits p))]
      simp only [digitsToNat_natToDigits]
      rw [if_pos (hh3 p rfl).1, if_neg (hh3 p rfl).2]
    rw [hps, hlow]

theorem pqTail_q (r2 : Str) : pqTail ('?' :: r2) =
    if noSpace (r2.takeWhile (fun c => !(c = '#'))) then
      match r2.dropWhile (fun c => !(c = '#')) with
      | '#' :: f =>
        if noSpace f then
          some (some (r2.takeWhile (fun c => !(c = '#'))), some f)
        else none
      | _ => some (some (r2.takeWhile (fun c => !(c = '#'))), none)
    else none := rfl

theorem pqTail_f (f : Str) : pqTail ('#' :: f) =
    if noSpace f then some (none, some f) else none := rfl

theorem pqTail_serialize (query frag : Option Str)
    (hq : ∀ q, query = some q → ∀ c ∈ q, c ≠ '#' ∧ isSpaceChar c = false)
    (hf : ∀ f, frag = some f → ∀ c ∈ f, isSpaceChar c = false) :
    pqTail (serializeQuery query ++ serializeFrag frag) = some (query, frag) := by
  cases query with
  | none =>
    cases frag with
    | none => rfl
    | some f =>
      show pqTail ('#' :: f) = some (none, some f)
      rw [pqTail_f, if_pos (noSpace_of_mem f (hf f rfl))]
  | some q =>
    have hqch : ∀ c ∈ q, (!(c = '#' : Bool)) = true := by
      intro c hc
      simp [(hq q rfl c hc).1]
    have hnq : noSpace q = true :=
      noSpace_of_mem q (fun c hc => (hq q rfl c hc).2)
    cases frag with
    | none =>
      show pqTail ('?' :: (q ++ [])) = some (some q, none)
      rw [pqTail_q]
      rw [takeWhile_append_all _ q [] hqch (by simp)]
      rw [dropWhile_append_all _ q [] hqch (by simp)]
      rw [if_pos hnq]
    | some f =>
      show pqTail ('?' :: (q ++ '#' :: f)) = some (some q, some f)
      rw [pqTail_q]
      rw [takeWhile_append_all _ q ('#' :: f) hqch (by intro c hc; simp at hc; subst hc; decide)]
      rw [dropWhile_append_all _ q ('#' :: f) hqch (by intro c hc; simp at hc; subst hc; decide)]
      rw [if_pos hnq]
      simp only []
      rw [if_pos (noSpace_of_mem f (hf f rfl))]

theorem parsePathQF_serialize (path : Str) (query frag : Option Str)
    (hp1 : path ≠ [])
    (hp3 : ∀ c ∈ path, isPQDelim c = false ∧ isSpaceChar c = false)
    (hq : ∀ q, query = some q → ∀ c ∈ q, c ≠ '#' ∧ isSpaceChar c = false)
    (hf : ∀ f, frag = some f → ∀ c ∈ f, isSpaceChar c = false) :
    parsePathQF (path ++ serializeQuery query ++ serializeFrag frag) =
      some (path, query, frag) := by
  have hpch : ∀ c ∈ path, (!isPQDelim c) = true := by
    intro c hc
    simp [(hp3 c hc).1]
  have hhead : ∀ c, (serializeQuery query ++ serializeFrag frag).head? = some c →
      (!isPQDelim c) = false := by
    intro c hc
    cases query with
    | some q => simp [serializeQuery] at hc; subst hc; decide
    | none =>
      cases frag with
      | some f => simp [serializeQuery, serializeFrag] at hc; subst hc; decide
      | none => simp [serializeQuery, serializeFrag] at hc
  have hassoc : path ++ serializeQuery query ++ serializeFrag frag =
      path ++ (serializeQuery query ++ serializeFrag frag) := by
    simp [List.append_assoc]
  rw [hassoc]
  unfold parsePathQF
  rw [takeWhile_append_all _ path _ hpch hhead]
  rw [dropWhile_append_all _ path _ hpch hhead]
  rw [if_pos (noSpace_of_mem path (fun c hc => (hp3 c hc).2))]
  rw [pqTail_serialize query frag hq hf]
  simp only []
  unfold normPath
  rw [if_neg hp1]

theorem parseHP_serialize (sch : Str) (ui : Option Str) (host : Str)
    (port : Option Nat) (path : Str) (query frag : Option Str)
    (hh1 : host ≠ []) (hh2 : ∀ c ∈ host, isHostChar c = true ∧ lowerChar c = c)
    (hh3 : ∀ p, port = some p → p < 65536 ∧ defaultPort sch ≠ some p)
    (hp1 : path ≠ [])
    (hp3 : ∀ c ∈ path, isPQDelim c = false ∧ isSpaceChar c = false)
    (hq : ∀ q, query = some q → ∀ c ∈ q, c ≠ '#' ∧ isSpaceChar c = false)
    (hf : ∀ f, frag = some f → ∀ c ∈ f, isSpaceChar c = false) :
    parseHP sch ui (host ++ serializePort port)
      (path ++ serializeQuery query ++ serializeFrag frag) =
      some ⟨sch, ui, host, port, path, query, frag⟩ := by
  unfold parseHP
  rw [parseHostPort_serialize sch host port hh1 hh2 hh3]
  simp only []
  rw [parsePathQF_serialize path query frag hp1 hp3 hq hf]

theorem no_amp_hostport (host : Str) (port : Option Nat)
    (hh2 : ∀ c ∈ host, isHostChar c = true ∧ lowerChar c = c) :
    '@' ∉ host ++ serializePort port := by
  intro hmem
  rcases List.mem_append.mp hmem with hm | hm
  · exact (isHostChar_props '@' ((hh2 '@' hm).1)).2.2.1 rfl
  · cases port with
    | none => simp [serializePort] at hm
    | some p =>
      simp [serializePort] at hm
      have := natToDigits_all_digits p '@' hm
      exact absurd this (by decide)

theorem parseAuth_serialize (sch : Str) (ui : Option Str) (hostport tail : Str)
    (hamp : '@' ∉ hostport)
    (hui : ∀ x, ui = some x → x ≠ [] ∧
      ∀ c ∈ x, isAuthDelim c = false ∧ isSpaceChar c = false) :
    parseAuth sch (serializeUI ui ++ hostport) tail = parseHP sch ui hostport tail := by
  cases ui with
  | none =>
    show parseAuth sch ([] ++ hostport) tail = parseHP sch none hostport tail
    rw [List.nil_append]
    unfold parseAuth
    rw [breakAtLast_eq_none '@' hostport hamp]
  | some x =>
    show parseAuth sch ((x ++ ['@']) ++ hostport) tail = parseHP sch (some x) hostport tail
    have hx : (x ++ ['@']) ++ hostport = x ++ '@' :: hostport := by simp
    rw [hx]
    unfold parseAuth
    rw [breakAtLast_append '@' x hostport hamp]
    simp only []
    rw [if_neg (hui x rfl).1]
    rw [if_pos (noSpace_of_mem x (fun c hc => ((hui x rfl).2 c hc).2))]

/-- Serializing a well-formed record and re-parsing returns the record
unchanged: the modelled URL fragment is closed under `toString`. -/
theorem parse_serializeURL (u : URLRecord) (hwf : wellFormedURL u) :
    parseURL (serializeURL u) = some u := by
  obtain ⟨sch, ui, host, port, path, query, frag⟩ := u
  obtain ⟨h1, h2, h3, h4, h5, h6, h7, h8, h9, h10, h11, h12⟩ := hwf
  simp only [] at h1 h2 h3 h4 h5 h6 h7 h8 h9 h10 h11 h12
  cases sch with
  | nil => exact absurd rfl h1
  | cons c0 scr =>
    have hser : serializeURL ⟨c0 :: scr, ui, host, port, path, query, frag⟩ =
        c0 :: (scr ++ ':' :: '/' :: '/' ::
          (serializeUI ui ++ host ++ serializePort port ++
           path ++ serializeQuery query ++ serializeFrag frag)) := by
      simp [serializeURL]
    rw [hser]
    have hstep : ∀ (c : Char) (rest : Str), parseURL (c :: rest) =
        if isAlphaChar c then
          match schemeSplit (c :: rest) with
          | none => none
          | some (rawScheme, r2) => parseAfterScheme (lowerStr rawScheme) r2
        else none := fun c rest => rfl
    rw [hstep]
    have ha : isAlphaChar c0 = true := by
      have hl := h2 c0 rfl
      have hf := (h3 c0 (by simp)).2
      unfold isAlphaChar
      rw [hf]
      exact hl
    rw [if_pos ha]
    have hsplit : schemeSplit (c0 :: (scr ++ ':' :: '/' :: '/' ::
        (serializeUI ui ++ host ++ serializePort port ++
         path ++ serializeQuery query ++ serializeFrag frag))) =
        some (c0 :: scr, '/' :: '/' ::
          (serializeUI ui ++ host ++ serializePort port ++
           path ++ serializeQuery query ++ serializeFrag frag)) := by
      have := schemeSplit_append (c0 :: scr)
        ('/' :: '/' ::
          (serializeUI ui ++ host ++ serializePort port ++
           path ++ serializeQuery query ++ serializeFrag frag))
        (fun c hc => (h3 c hc).1)
      simpa using this
    rw [hsplit]
    simp only []
    rw [lowerStr_eq_self _ (fun c hc => (h3 c hc).2)]
    unfold parseAfterScheme
    simp only []
    have hassoc : serializeUI ui ++ host ++ serializePort port ++
        path ++ serializeQuery query ++ serializeFrag frag =
        (serializeUI ui ++ (host ++ serializePort port)) ++
        (path ++ serializeQuery query ++ serializeFrag frag) := by
      simp [List.append_assoc]
    rw [hassoc]
    have hauthchars : ∀ c ∈ serializeUI ui ++ (host ++ serializePort port),
        (!isAuthDelim c) = true := by
      intro c hc
      rcases List.mem_append.mp hc with hm | hm
      · cases ui with
        | none => simp [serializeUI] at hm
        | some x =>
          simp [serializeUI] at hm
          rcases hm with hm | hm
          · simp [((h4 x rfl).2 c hm).1]
          · subst hm; decide
      · rcases List.mem_append.mp hm with hm2 | hm2
        · simp [(isHostChar_props c ((h6 c hm2).1)).1]
        · cases port with
          | none => simp [serializePort] at hm2
          | some p =>
            simp [serializePort] at hm2
            rcases hm2 with hm2 | hm2
            · subst hm2; decide
            · simp [(isDigitChar_props c (natToDigits_all_digits p c hm2)).1]
    have htailhead : ∀ c, (path ++ serializeQuery query ++ serializeFrag frag).head? =
        some c → (!isAuthDelim c) = false := by
      intro c hc
      have hassoc2 : path ++ serializeQuery query ++ serializeFrag frag =
          path ++ (serializeQuery query ++ serializeFrag frag) := by
        simp [List.append_assoc]
      rw [hassoc2, head?_append_left h8] at hc
      have := h9 c hc
      subst this
      decide
    rw [takeWhile_append_all _ _ _ hauthchars htailhead]
    rw [dropWhile_append_all _ _ _ hauthchars htailhead]
    rw [parseAuth_serialize (c0 :: scr) ui (host ++ serializePort port)
      (path ++ serializeQuery query ++ serializeFrag frag)
      (no_amp_hostport host port h6) h4]
    exact parseHP_serialize (c0 :: scr) ui host port path query frag
      h5 h6 h7 h8 h10 h11 h12

theorem serialize_nonspace (u : URLRecord) (hwf : wellFormedURL u) :
    ∀ c ∈ serializeURL u, isSpaceChar c = false := by
  obtain ⟨sch, ui, host, port, path, query, frag⟩ := u
  obtain ⟨h1, h2, h3, h4, h5, h6, h7, h8, h9, h10, h11, h12⟩ := hwf
  simp only [] at h3 h4 h6 h10 h11 h12
  intro c hc
  simp only [serializeURL, List.mem_append, List.mem_cons] at hc
  rcases hc with hm | hm | hm | hm | hm
  · exact (isSchemeChar_props c (h3 c hm).1).2
  · subst hm; decide
  · subst hm; decide
  · subst hm; decide
  · rcases hm with ((((hm1 | hm2) | hm3) | hm4) | hm5) | hm6
    · cases ui with
      | none => simp [serializeUI] at hm1
      | some x =>
        simp [serializeUI] at hm1
        rcases hm1 with hm3 | hm3
        · exact ((h4 x rfl).2 c hm3).2
        · subst hm3; decide
    · exact (isHostChar_props c (h6 c hm2).1).2.2.2
    · cases port with
      | none => simp [serializePort] at hm3
      | some p =>
        simp [serializePort] at hm3
        rcases hm3 with hm5 | hm5
        · subst hm5; decide
        · exact digit_not_space c (natToDigits_all_digits p c hm5)
    · exact (h10 c hm4).2
    · cases query with
      | none => simp [serializeQuery] at hm5
      | some q =>
        simp [serializeQuery] at hm5
        rcases hm5 with hm7 | hm7
        · subst hm7; decide
        · exact (h11 q rfl c hm7).2
    · cases frag with
      | none => simp [serializeFrag] at hm6
      | some f =>
        simp [serializeFrag] at hm6
        rcases hm6 with hm7 | hm7
        · subst hm7; decide
        · exact h12 f rfl c hm7

theorem serializeURL_ne_nil (u : URLRecord) (hwf : wellFormedURL u) :
    serializeURL u ≠ [] := by
  obtain ⟨sch, ui, host, port, path, query, frag⟩ := u
  obtain ⟨h1, _⟩ := hwf
  simp only [] at h1
  simp [serializeURL]

theorem trim_serializeURL (u : URLRecord) (hwf : wellFormedURL u) :
    trim (serializeURL u) = serializeURL u := by
  apply trim_eq_self
  · intro c hc
    exact serialize_nonspace u hwf c (head?_mem hc)
  · intro c hc
    exact serialize_nonspace u hwf c (List.mem_of_mem_getLast? hc)

theorem newline_not_mem_serializeURL (u : URLRecord) (hwf : wellFormedURL u) :
    '\n' ∉ serializeURL u := by
  intro hmem
  have := serialize_nonspace u hwf '\n' hmem
  exact absurd this (by decide)

theorem setHostname_scheme (u : URLRecord) (h : Str) :
    (setHostname u h).scheme = u.scheme ∧
    (setHostname u h).userinfo = u.userinfo ∧
    (setHostname u h).port = u.port ∧
    (setHostname u h).path = u.path ∧
    (setHostname u h).query = u.query ∧
    (setHostname u h).frag = u.frag := by
  unfold setHostname
  split <;> exact ⟨rfl, rfl, rfl, rfl, rfl, rfl⟩

theorem setHostname_host_valid (u : URLRecord) (h : Str)
    (hv : validHostStr h = true) : (setHostname u h).host = lowerStr h := by
  unfold setHostname
  rw [if_pos hv]

theorem setHostname_invalid (u : URLRecord) (h : Str)
    (hv : validHostStr h = false) : setHostname u h = u := by
  unfold setHostname
  rw [hv]
  simp

theorem validHostStr_elim (h : Str) (hv : validHostStr h = true) :
    h ≠ [] ∧ h.all isHostChar = true := by
  unfold validHostStr at hv
  simp at hv
  obtain ⟨hv1, hv2⟩ := hv
  refine ⟨by simpa using hv1, ?_⟩
  rw [List.all_eq_true]
  intro c hc
  simp [hv2 c hc]

theorem wellFormed_setHostname (u : URLRecord) (h : Str)
    (hwf : wellFormedURL u) : wellFormedURL (setHostname u h) := by
  unfold setHostname
  split
  · next hv =>
    obtain ⟨sch, ui, host, port, path, query, frag⟩ := u
    obtain ⟨h1, h2, h3, h4, h5, h6, h7, h8, h9, h10, h11, h12⟩ := hwf
    rcases validHostStr_elim h hv with ⟨hne, hall⟩
    unfold wellFormedURL
    refine ⟨h1, h2, h3, h4, ?_, ?_, h7, h8, h9, h10, h11, h12⟩
    · show lowerStr h ≠ []
      simp [lowerStr, hne]
    · exact lowerStr_hostChars h hall
  · exact hwf

/-- Model of `removeProtocol` (App.tsx line 28): strip one leading
case-insensitive `http://` or `https://` via the regex
`^(https?:\/\/)/i`. -/
def removeProtocol (domain : Str) : Str :=
  if ("http://".toList).isPrefixOf (lowerStr domain) then domain.drop 7
  else if ("https://".toList).isPrefixOf (lowerStr domain) then domain.drop 8
  else domain

/-- The inline marker appended to unparsable lines (App.tsx line 167). -/
def invalidMark : Str := " (無効なURL)".toList

/-- Model of `urlsText.split('\n').filter(url => url.trim() !== '')`
(App.tsx lines 86 and 148). -/
def nonEmptyLines (text : Str) : List Str :=
  (splitLines text).filter (fun u => !(trim u).isEmpty)

/-- Accumulator of the `forEach` loop in `extractCommonDomain`
(App.tsx lines 89-105): the tally object, the running maximum and the
current common domain. -/
structure ExtractAcc where
  counts : List (Str × Nat)
  maxCount : Nat
  common : Option Str
deriving DecidableEq, Repr

/-- Model of `domainCounts[domain] = (domainCounts[domain] || 0) + 1`;
JavaScript objects keep keys in first-insertion order. -/
def bumpCount : List (Str × Nat) → Str → List (Str × Nat)
  | [], d => [(d, 1)]
  | (k, n) :: rest, d =>
    if k = d then (k, n + 1) :: rest else (k, n) :: bumpCount rest d

/-- Tally lookup, `domainCounts[domain] || 0`; keys are unique, so the
first match is the only one. -/
def lookupCount : List (Str × Nat) → Str → Nat
  | [], _ => 0
  | (k, n) :: rest, d => if k = d then n else lookupCount rest d

/-- One iteration of the `forEach` body (App.tsx lines 93-105): parse
the trimmed line, on success bump the tally of its hostname and, when
the new tally strictly exceeds the maximum, promote it. -/
def extractStep (acc : ExtractAcc) (urlStr : Str) : ExtractAcc :=
  match parseURL (trim urlStr) with
  | none => acc
  | some url =>
    if lookupCount (bumpCount acc.counts url.host) url.host > acc.maxCount then
      ⟨bumpCount acc.counts url.host,
       lookupCount (bumpCount acc.counts url.host) url.host, some url.host⟩
    else ⟨bumpCount acc.counts url.host, acc.maxCount, acc.common⟩

/-- Model of `extractCommonDomain` (App.tsx lines 85-109).  The final
test is `maxCount > urls.length / 2 || Object.keys(domainCounts).length === 1`
with real division, rendered as `2 * maxCount > urls.length`. -/
def extractCommonDomain (urlsText : Str) : Option Str :=
  if (nonEmptyLines urlsText).length = 0 then none
  else if 2 * ((nonEmptyLines urlsText).foldl extractStep ⟨[], 0, none⟩).maxCount >
      (nonEmptyLines urlsText).length ∨
      ((nonEmptyLines urlsText).foldl extractStep ⟨[], 0, none⟩).counts.length = 1 then
    ((nonEmptyLines urlsText).foldl extractStep ⟨[], 0, none⟩).common
  else none

/-- The body of the `urls.map` in `handleReplace` (App.tsx lines
150-169), returning the emitted line and whether the invalid counter
was incremented. -/
def replaceLine (cleanOld cleanNew urlStr : Str) : Str × Bool :=
  match parseURL (trim urlStr) with
  | some url =>
    if lowerStr url.host = lowerStr cleanOld then
      (serializeURL (setHostname url cleanNew), false)
    else (trim urlStr, false)
  | none => (trim urlStr ++ invalidMark, true)

/-- The pure core of `handleReplace` (App.tsx lines 148-171): map every
non-empty line through `replaceLine`, join with newlines, and count the
invalid lines. -/
def replaceUrls (inputUrls cleanOld cleanNew : Str) : Str × Nat :=
  (joinLines ((nonEmptyLines inputUrls).map
      (fun l => (replaceLine cleanOld cleanNew l).1)),
   ((nonEmptyLines inputUrls).filter
      (fun l => (replaceLine cleanOld cleanNew l).2)).length)

/-- HistoryEntry record (App.tsx lines 12-18). -/
structure HistoryEntry where
  id : Str
  timestamp : Nat
  inputUrls : Str
  oldDomain : Str
  newDomain : Str
deriving DecidableEq, Repr

/-- PresetEntry record (App.tsx lines 20-25). -/
structure PresetEntry where
  id : Str
  name : Str
  oldDomain : Str
  newDomain : Str
deriving DecidableEq, Repr

/-- The React component state of `App` (App.tsx lines 33-40). -/
structure AppState where
  inputUrls : Str
  oldDomain : Str
  newDomain : Str
  outputUrls : Str
  history : List HistoryEntry
  presets : List PresetEntry
  presetName : Str
  autoExtractEnabled : Bool
deriving DecidableEq, Repr

/-- `removeProtocol(x.trim())`, the cleaning applied to both domain
fields in `handleReplace` and `savePreset` (App.tsx lines 131-132,
247-248). -/
def cleanDomain (d : Str) : Str := removeProtocol (trim d)

/-- Model of `handleReplace` (App.tsx lines 130-194).  `now` stands for
`Date.now()`.  The cleaned domains are written back to the form state
before the validation check (lines 135-136); on validation failure
(line 141) only the error toast is shown and the handler returns. -/
def handleReplace (now : Nat) (s : AppState) : AppState :=
  if s.inputUrls = [] ∨ cleanDomain s.oldDomain = [] ∨ cleanDomain s.newDomain = [] then
    { s with oldDomain := cleanDomain s.oldDomain,
             newDomain := cleanDomain s.newDomain }
  else
    { s with
      oldDomain := cleanDomain s.oldDomain,
      newDomain := cleanDomain s.newDomain,
      outputUrls := (replaceUrls s.inputUrls (cleanDomain s.oldDomain)
        (cleanDomain s.newDomain)).1,
      history :=
        ⟨natToDigits now, now, s.inputUrls, cleanDomain s.oldDomain,
         cleanDomain s.newDomain⟩ :: s.history.take 19 }

/-- Model of `deleteHistoryEntry` (App.tsx lines 234-237). -/
def deleteHistoryEntry (entryId : Str) (s : AppState) : AppState :=
  { s with history := s.history.filter (fun h2 => h2.id != entryId) }

/-- Model of `clearHistory` (App.tsx lines 239-243). -/
def clearHistory (s : AppState) : AppState :=
  { s with history := [] }

/-- Model of `savePreset` (App.tsx lines 246-271): validation and the
duplicate-name check (`p.name === presetName`, raw comparison) happen
before any state update; on success the preset is appended, the name
input cleared and the domain fields normalized. -/
def savePreset (now : Nat) (s : AppState) : AppState :=
  if s.presetName = [] ∨ cleanDomain s.oldDomain = [] ∨ cleanDomain s.newDomain = [] then s
  else if s.presets.any (fun p => p.name == s.presetName) then s
  else
    { s with
      presets := s.presets ++
        [⟨natToDigits now, s.presetName, cleanDomain s.oldDomain,
          cleanDomain s.newDomain⟩],
      presetName := [],
      oldDomain := cleanDomain s.oldDomain,
      newDomain := cleanDomain s.newDomain }

/-- Model of the auto-extraction effect (App.tsx lines 111-118): while
the toggle is enabled and the extractor returns a truthy result and the
old-domain field is empty, fill it with the protocol-stripped result. -/
def autoExtractEffect (s : AppState) : AppState :=
  if s.autoExtractEnabled then
    match extractCommonDomain s.inputUrls with
    | some d =>
      if d ≠ [] ∧ s.oldDomain = [] then { s with oldDomain := removeProtocol d }
      else s
    | none => s
  else s

/-- Model of one `localStorage` key holding a JSON-serialized
collection: the key is absent, holds the serialization of a collection,
or holds corrupt text on which `JSON.parse` throws.  Corruption that
still parses as JSON of a different shape is beyond this model. -/
inductive StoreCell (α : Type) where
  | absent : StoreCell α
  | stored : α → StoreCell α
  | corrupt : StoreCell α
deriving DecidableEq

/-- Model of the load effect for one key (App.tsx lines 43-62):
`getItem`; when present, `JSON.parse` inside `try` — on success the
parsed collection becomes the state, on failure the corrupted key is
removed and the state stays empty.  Returns the resulting in-memory
collection and the cell afterwards. -/
def loadCollection {α : Type} : StoreCell (List α) → List α × StoreCell (List α)
  | .absent => ([], .absent)
  | .stored v => (v, .stored v)
  | .corrupt => ([], .absent)

/-- Model of the save effects (App.tsx lines 64-82): a non-empty
collection is serialized with `setItem`, an empty one removes the key. -/
def saveCollection {α : Type} (l : List α) : StoreCell (List α) :=
  if l.length > 0 then .stored l else .absent

/-- The operations of claim C5 that touch the history collection. -/
inductive HistoryOp where
  | replaceOp (now : Nat)
  | deleteOp (entryId : Str)
  | clearOp

def applyHistoryOp : HistoryOp → AppState → AppState
  | .replaceOp now, s => handleReplace now s
  | .deleteOp i, s => deleteHistoryEntry i s
  | .clearOp, s => clearHistory s

def applyHistoryOps (ops : List HistoryOp) (s : AppState) : AppState :=
  ops.foldl (fun t op => applyHistoryOp op t) s

/-- Hostnames of the lines that parse successfully, in order: the lines
contributing to the extractor's tallies. -/
def parsedHosts (text : Str) : List Str :=
  (nonEmptyLines text).filterMap (fun l => (parseURL (trim l)).map (fun u => u.host))

theorem lookup_bump_same (counts : List (Str × Nat)) (d : Str) :
    lookupCount (bumpCount counts d) d = lookupCount counts d + 1 := by
  induction counts with
  | nil => simp [bumpCount, lookupCount]
  | cons p rest ih =>
    cases p with
    | mk k n =>
      unfold bumpCount
      by_cases hk : k = d
      · rw [if_pos hk]
        simp [lookupCount, hk]
      · rw [if_neg hk]
        simp [lookupCount, hk, ih]

theorem lookup_bump_other (counts : List (Str × Nat)) (d e : Str) (hne : e ≠ d) :
    lookupCount (bumpCount counts d) e = lookupCount counts e := by
  induction counts with
  | nil =>
    simp [bumpCount, lookupCount]
    intro hd
    exact absurd hd.symm hne
  | cons p rest ih =>
    cases p with
    | mk k n =>
      unfold bumpCount
      by_cases hk : k = d
      · rw [if_pos hk]
        subst hk
        have hke : ¬ k = e := fun he => hne he.symm
        simp [lookupCount, hke]
      · rw [if_neg hk]
        by_cases hk2 : k = e
        · simp [lookupCount, hk2]
        · simp [lookupCount, hk2, ih]

theorem mem_keys_bump (counts : List (Str × Nat)) (d e : Str) :
    e ∈ (bumpCount counts d).map Prod.fst ↔ e ∈ counts.map Prod.fst ∨ e = d := by
  induction counts with
  | nil => simp [bumpCount]
  | cons p rest ih =>
    cases p with
    | mk k n =>
      unfold bumpCount
      by_cases hk : k = d
      · rw [if_pos hk]
        subst hk
        simp
        tauto
      · rw [if_neg hk]
        simp [ih]
        tauto

theorem keys_bump_nodup (counts : List (Str × Nat)) (d : Str)
    (h : (counts.map Prod.fst).Nodup) : ((bumpCount counts d).map Prod.fst).Nodup := by
  induction counts with
  | nil => simp [bumpCount]
  | cons p rest ih =>
    cases p with
    | mk k n =>
      rw [List.map_cons, List.nodup_cons] at h
      obtain ⟨hk1, hk2⟩ := h
      unfold bumpCount
      by_cases hk : k = d
      · rw [if_pos hk]
        rw [List.map_cons, List.nodup_cons]
        exact ⟨hk1, hk2⟩
      · rw [if_neg hk]
        rw [List.map_cons, List.nodup_cons]
        constructor
        · intro hmem
          rw [mem_keys_bump] at hmem
          rcases hmem with hm | hm
          · exact hk1 hm
          · exact hk hm
        · exact ih hk2

theorem keys_bump_length (counts : List (Str × Nat)) (d : Str) :
    (bumpCount counts d).length =
      if d ∈ counts.map Prod.fst then counts.length else counts.length + 1 := by
  induction counts with
  | nil => simp [bumpCount]
  | cons p rest ih =>
    cases p with
    | mk k n =>
      unfold bumpCount
      by_cases hk : k = d
      · rw [if_pos hk]
        subst hk
        simp
      · rw [if_neg hk]
        have hdk : ¬ d = k := fun he => hk he.symm
        by_cases hd : d ∈ rest.map Prod.fst
        · rw [if_pos (show d ∈ ((k, n) :: rest).map Prod.fst by simp [hd])]
          simp [ih, hd]
        · rw [if_neg (show d ∉ ((k, n) :: rest).map Prod.fst by simp [hdk, hd])]
          simp [ih, hd]

/-- Hostnames of the lines in a list that parse successfully. -/
def hostsOf (lines : List Str) : List Str :=
  lines.filterMap (fun l => (parseURL (trim l)).map (fun u => u.host))

/-- Loop invariant of the `forEach` in `extractCommonDomain`: the tally
object tallies exactly the parsed hostnames seen so far, its keys are
those hostnames without duplicates, and the tracked common domain is a
seen hostname whose tally equals `maxCount`. -/
def extractInv (lines : List Str) (acc : ExtractAcc) : Prop :=
  (∀ d, lookupCount acc.counts d = (hostsOf lines).count d) ∧
  (acc.counts.map Prod.fst).Nodup ∧
  (∀ d, d ∈ acc.counts.map Prod.fst ↔ d ∈ hostsOf lines) ∧
  (∀ d, acc.common = some d → d ∈ hostsOf lines ∧ (hostsOf lines).count d = acc.maxCount) ∧
  (acc.common = none → hostsOf lines = [] ∧ acc.maxCount = 0)

theorem extractInv_init : extractInv [] ⟨[], 0, none⟩ := by
  unfold extractInv hostsOf
  refine ⟨fun d => by simp [lookupCount], by simp, fun d => by simp, ?_, ?_⟩
  · intro d hd
    simp at hd
  · intro _
    simp

theorem extractInv_step (lines : List Str) (acc : ExtractAcc) (l : Str)
    (h : extractInv lines acc) : extractInv (lines ++ [l]) (extractStep acc l) := by
  obtain ⟨h1, h2, h3, h4, h5⟩ := h
  unfold extractStep
  cases hp : parseURL (trim l) with
  | none =>
    have hh : hostsOf (lines ++ [l]) = hostsOf lines := by
      unfold hostsOf
      rw [List.filterMap_append]
      simp [hp]
    unfold extractInv
    rw [hh]
    exact ⟨h1, h2, h3, h4, h5⟩
  | some u =>
    have hh : hostsOf (lines ++ [l]) = hostsOf lines ++ [u.host] := by
      unfold hostsOf
      rw [List.filterMap_append]
      simp [hp]
    have hcount_same : (hostsOf lines ++ [u.host]).count u.host =
        (hostsOf lines).count u.host + 1 := by
      rw [List.count_append]
      simp
    have hcount_other : ∀ d, d ≠ u.host →
        (hostsOf lines ++ [u.host]).count d = (hostsOf lines).count d := by
      intro d hd
      rw [List.count_append]
      simp [List.count_cons]
      intro he
      exact absurd he.symm hd
    simp only []
    by_cases hgt : lookupCount (bumpCount acc.counts u.host) u.host > acc.maxCount
    · rw [if_pos hgt]
      unfold extractInv
      rw [hh]
      refine ⟨?_, keys_bump_nodup _ _ h2, ?_, ?_, by intro hc; simp at hc⟩
      · intro d
        by_cases hd : d = u.host
        · subst hd
          rw [lookup_bump_same, h1 u.host, hcount_same]
        · rw [lookup_bump_other _ _ _ hd, h1 d, hcount_other d hd]
      · intro d
        rw [mem_keys_bump, h3 d]
        simp
      · intro d hd
        simp at hd
        subst hd
        exact ⟨by simp, by rw [hcount_same, lookup_bump_same, h1]⟩
    · rw [if_neg hgt]
      unfold extractInv
      rw [hh]
      have hmax_pos : ∀ hc : acc.common = none, False := by
        intro hc
        rcases h5 hc with ⟨hempty, hzero⟩
        rw [lookup_bump_same, h1, hempty] at hgt
        simp at hgt
        omega
      refine ⟨?_, keys_bump_nodup _ _ h2, ?_, ?_, fun hc => absurd hc (by simpa using hmax_pos)⟩
      · intro d
        by_cases hd : d = u.host
        · subst hd
          rw [lookup_bump_same, h1 u.host, hcount_same]
        · rw [lookup_bump_other _ _ _ hd, h1 d, hcount_other d hd]
      · intro d
        rw [mem_keys_bump, h3 d]
        simp
      · intro d hd
        rcases h4 d hd with ⟨hmem, hcnt⟩
        by_cases hdu : d = u.host
        · subst hdu
          rw [lookup_bump_same, h1 u.host, hcnt] at hgt
          omega
        · exact ⟨by simp [hmem], by rw [hcount_other d hdu]; exact hcnt⟩

theorem extractInv_foldl (ls : List Str) (lines : List Str) (acc : ExtractAcc)
    (h : extractInv lines acc) : extractInv (lines ++ ls) (ls.foldl extractStep acc) := by
  induction ls generalizing lines acc with
  | nil => simpa using h
  | cons l rest ih =>
    have := ih (lines ++ [l]) (extractStep acc l) (extractInv_step lines acc l h)
    simpa [List.append_assoc] using this

/-- C1: `extractCommonDomain` returns a hostname only if that hostname's
tally is strictly greater than half of the number of valid (successfully
parsed) URL lines, or if exactly one distinct hostname was observed
across all valid lines; lines that fail to parse contribute nothing to
the tallies (`parsedHosts` keeps only parsed lines); in every other case
it returns null — stated contrapositively: whenever `some h` is
returned, `h` is a parsed hostname satisfying one of the two
conditions, so in particular with zero non-empty lines or all lines
unparsable the result is `none`. -/
theorem C1_extractCommonDomain_threshold (text : Str) (h : Str)
    (he : extractCommonDomain text = some h) :
    h ∈ parsedHosts text ∧
    (2 * (parsedHosts text).count h > (parsedHosts text).length ∨
     ∀ x ∈ parsedHosts text, x = h) := by
  have hph : parsedHosts text = hostsOf (nonEmptyLines text) := rfl
  unfold extractCommonDomain at he
  by_cases hz : (nonEmptyLines text).length = 0
  · rw [if_pos hz] at he
    simp at he
  · rw [if_neg hz] at he
    have hinv := extractInv_foldl (nonEmptyLines text) [] ⟨[], 0, none⟩ extractInv_init
    rw [List.nil_append] at hinv
    obtain ⟨h1, h2, h3, h4, h5⟩ := hinv
    by_cases hcond : 2 * ((nonEmptyLines text).foldl extractStep ⟨[], 0, none⟩).maxCount >
        (nonEmptyLines text).length ∨
        ((nonEmptyLines text).foldl extractStep ⟨[], 0, none⟩).counts.length = 1
    · rw [if_pos hcond] at he
      rcases h4 h he with ⟨hmem, hcnt⟩
      rw [hph]
      refine ⟨hmem, ?_⟩
      rcases hcond with hmaj | hone
      · left
        have hle : (hostsOf (nonEmptyLines text)).length ≤ (nonEmptyLines text).length :=
          List.length_filterMap_le _ _
        omega
      · right
        intro x hx
        have hkeys : ((((nonEmptyLines text).foldl extractStep
            ⟨[], 0, none⟩).counts).map Prod.fst).length = 1 := by
          simpa using hone
        rcases List.length_eq_one.mp hkeys with ⟨k, hk⟩
        have hxk : x = k := by
          have := (h3 x).mpr hx
          rw [hk] at this
          simpa using this
        have hhk : h = k := by
          have := (h3 h).mpr hmem
          rw [hk] at this
          simpa using this
        rw [hxk, hhk]
    · rw [if_neg hcond] at he
      simp at he

/-- Witness for C1 at a concrete input: two of three valid lines share
the hostname `a.com`, the extractor returns it, and it satisfies the
majority condition. -/
theorem C1_witness :
    ("a.com".toList ∈
      parsedHosts ("https://a.com/1\nhttps://a.com/2\nhttps://b.com/3".toList)) ∧
    (2 * (parsedHosts ("https://a.com/1\nhttps://a.com/2\nhttps://b.com/3".toList)).count
        ("a.com".toList) >
      (parsedHosts ("https://a.com/1\nhttps://a.com/2\nhttps://b.com/3".toList)).length ∨
     ∀ x ∈ parsedHosts ("https://a.com/1\nhttps://a.com/2\nhttps://b.com/3".toList),
       x = "a.com".toList) :=
  C1_extractCommonDomain_threshold
    ("https://a.com/1\nhttps://a.com/2\nhttps://b.com/3".toList)
    ("a.com".toList) (by decide)

/-- C2 counterexample: with empty input text (validation fails) and an
old-domain field holding a leading space, `handleReplace` still rewrites
the old-domain field to its normalized value, so the state is mutated,
contradicting the claim that no state mutation occurs. -/
theorem C2_counterexample :
    (AppState.mk [] (" a.com".toList) ("b.com".toList) [] [] [] [] true).inputUrls = [] ∧
    handleReplace 0 (AppState.mk [] (" a.com".toList) ("b.com".toList) [] [] [] [] true) ≠
      AppState.mk [] (" a.com".toList) ("b.com".toList) [] [] [] [] true := by
  exact ⟨rfl, by decide⟩

/-- C2 (amended): when the input text or a normalized domain is empty,
`handleReplace` does not perform the operation — output text, history,
presets and hence persisted storage are untouched — but the old- and
new-domain form fields are still replaced by their normalized (trimmed,
protocol-stripped) values, which happens before the validation check. -/
theorem C2_handleReplace_validation (now : Nat) (s : AppState)
    (h : s.inputUrls = [] ∨ cleanDomain s.oldDomain = [] ∨ cleanDomain s.newDomain = []) :
    handleReplace now s =
      { s with oldDomain := cleanDomain s.oldDomain,
               newDomain := cleanDomain s.newDomain } ∧
    (handleReplace now s).outputUrls = s.outputUrls ∧
    (handleReplace now s).history = s.history ∧
    (handleReplace now s).presets = s.presets ∧
    saveCollection (handleReplace now s).history = saveCollection s.history := by
  have h1 : handleReplace now s =
      { s with oldDomain := cleanDomain s.oldDomain,
               newDomain := cleanDomain s.newDomain } := by
    unfold handleReplace
    rw [if_pos h]
  refine ⟨h1, ?_, ?_, ?_, ?_⟩ <;> rw [h1]

/-- Witness for C2's amended theorem at the counterexample state. -/
theorem C2_witness :
    ((AppState.mk [] (" a.com".toList) ("b.com".toList) [] [] [] [] true).inputUrls = [] ∨
      cleanDomain (AppState.mk [] (" a.com".toList) ("b.com".toList) [] [] [] [] true).oldDomain = [] ∨
      cleanDomain (AppState.mk [] (" a.com".toList) ("b.com".toList) [] [] [] [] true).newDomain = []) ∧
    handleReplace 7 (AppState.mk [] (" a.com".toList) ("b.com".toList) [] [] [] [] true) =
      { AppState.mk [] (" a.com".toList) ("b.com".toList) [] [] [] [] true with
          oldDomain := cleanDomain (AppState.mk [] (" a.com".toList) ("b.com".toList) [] [] [] [] true).oldDomain,
          newDomain := cleanDomain (AppState.mk [] (" a.com".toList) ("b.com".toList) [] [] [] [] true).newDomain } :=
  ⟨Or.inl rfl,
   (C2_handleReplace_validation 7 (AppState.mk [] (" a.com".toList) ("b.com".toList) [] [] [] [] true)
     (Or.inl rfl)).1⟩

/-- C3: for every value in a persistence cell, loading yields either the
previously stored collection or the empty collection; corrupt text is
erased and treated as empty; saving then loading — with or without an
intervening corruption — round-trips to the prior collection or to
empty, and never to a partially-parsed state.  Corruption is modelled as
text on which `JSON.parse` throws; the same statement is made for the
history and the presets key by quantifying over the element type. -/
theorem C3_persistence_roundtrip :
    (∀ (α : Type) (l : List α) (tamper : Bool),
      (loadCollection (if tamper then StoreCell.corrupt else saveCollection l)).1 = l ∨
      (loadCollection (if tamper then StoreCell.corrupt else saveCollection l)).1 = []) ∧
    (∀ (α : Type) (l : List α), (loadCollection (saveCollection l)).1 = l) ∧
    (loadCollection (StoreCell.corrupt : StoreCell (List HistoryEntry)) =
      ([], StoreCell.absent) ∧
     loadCollection (StoreCell.corrupt : StoreCell (List PresetEntry)) =
      ([], StoreCell.absent)) ∧
    (∀ (α : Type) (cell : StoreCell (List α)),
      (∃ v, cell = StoreCell.stored v ∧ (loadCollection cell).1 = v) ∨
      (loadCollection cell).1 = []) := by
  have hsave : ∀ (α : Type) (l : List α), (loadCollection (saveCollection l)).1 = l := by
    intro α l
    unfold saveCollection
    by_cases hl : l.length > 0
    · rw [if_pos hl]
      rfl
    · rw [if_neg hl]
      have : l = [] := by
        cases l with
        | nil => rfl
        | cons a as => simp at hl
      rw [this]
      rfl
  refine ⟨?_, hsave, ⟨rfl, rfl⟩, ?_⟩
  · intro α l tamper
    cases tamper with
    | false => exact Or.inl (hsave α l)
    | true => exact Or.inr rfl
  · intro α cell
    cases cell with
    | absent => exact Or.inr rfl
    | stored v => exact Or.inl ⟨v, rfl, rfl⟩
    | corrupt => exact Or.inr rfl

theorem history_cap_step (op : HistoryOp) (s : AppState)
    (h : s.history.length ≤ 20) : (applyHistoryOp op s).history.length ≤ 20 := by
  cases op with
  | replaceOp now =>
    show (handleReplace now s).history.length ≤ 20
    unfold handleReplace
    split
    · exact h
    · show ((⟨natToDigits now, now, s.inputUrls, cleanDomain s.oldDomain,
        cleanDomain s.newDomain⟩ : HistoryEntry) :: s.history.take 19).length ≤ 20
      rw [List.length_cons, List.length_take]
      omega
  | deleteOp i =>
    show (s.history.filter (fun h2 => h2.id != i)).length ≤ 20
    exact le_trans (List.length_filter_le _ _) h
  | clearOp =>
    show ([] : List HistoryEntry).length ≤ 20
    simp

/-- C5: starting from a history of at most 20 entries, every sequence of
replace / delete-one / clear-all operations leaves the history at no
more than 20 entries; a successful replace prepends the new entry and
truncates to the first 20 entries (the 19 newest old ones are kept and
all older ones are dropped). -/
theorem C5_history_bounded (s : AppState) (ops : List HistoryOp)
    (hcap : s.history.length ≤ 20) :
    (applyHistoryOps ops s).history.length ≤ 20 ∧
    (∀ (now : Nat) (t : AppState), t.inputUrls ≠ [] →
      cleanDomain t.oldDomain ≠ [] → cleanDomain t.newDomain ≠ [] →
      (handleReplace now t).history =
        (⟨natToDigits now, now, t.inputUrls, cleanDomain t.oldDomain,
          cleanDomain t.newDomain⟩ : HistoryEntry) :: t.history.take 19) := by
  constructor
  · have haux : ∀ (ops2 : List HistoryOp) (t : AppState), t.history.length ≤ 20 →
        (applyHistoryOps ops2 t).history.length ≤ 20 := by
      intro ops2
      induction ops2 with
      | nil =>
        intro t ht
        simpa [applyHistoryOps] using ht
      | cons op rest ih =>
        intro t ht
        have hstep := history_cap_step op t ht
        have := ih (applyHistoryOp op t) hstep
        simpa [applyHistoryOps] using this
    exact haux ops s hcap
  · intro now t h1 h2 h3
    unfold handleReplace
    rw [if_neg (by push_neg; exact ⟨h1, h2, h3⟩)]

/-- Witness for C5: two successful replaces from an empty history stay
within the cap, and a concrete successful replace prepends and
truncates. -/
theorem C5_witness :
    ((AppState.mk ("https://a.com/x".toList) ("a.com".toList) ("b.com".toList)
        [] [] [] [] true).history.length ≤ 20) ∧
    ((applyHistoryOps [HistoryOp.replaceOp 1, HistoryOp.replaceOp 2]
        (AppState.mk ("https://a.com/x".toList) ("a.com".toList) ("b.com".toList)
          [] [] [] [] true)).history.length ≤ 20 ∧
     (∀ (now : Nat) (t : AppState), t.inputUrls ≠ [] →
        cleanDomain t.oldDomain ≠ [] → cleanDomain t.newDomain ≠ [] →
        (handleReplace now t).history =
          (⟨natToDigits now, now, t.inputUrls, cleanDomain t.oldDomain,
            cleanDomain t.newDomain⟩ : HistoryEntry) :: t.history.take 19)) :=
  ⟨by decide,
   C5_history_bounded
     (AppState.mk ("https://a.com/x".toList) ("a.com".toList) ("b.com".toList)
       [] [] [] [] true)
     [HistoryOp.replaceOp 1, HistoryOp.replaceOp 2] (by decide)⟩

/-- C6: a SavePreset call whose name duplicates an existing preset name
(case-sensitive raw comparison) or whose name or either normalized
domain is empty is rejected with no state change at all: the returned
state is the input state, so in particular the presets collection and
its persisted form are unchanged in length and content. -/
theorem C6_savePreset_reject (now : Nat) (s : AppState)
    (h : s.presetName = [] ∨ cleanDomain s.oldDomain = [] ∨
      cleanDomain s.newDomain = [] ∨ ∃ p ∈ s.presets, p.name = s.presetName) :
    savePreset now s = s ∧
    (savePreset now s).presets.length = s.presets.length ∧
    saveCollection (savePreset now s).presets = saveCollection s.presets := by
  have h1 : savePreset now s = s := by
    unfold savePreset
    rcases h with h | h | h | h
    · rw [if_pos (Or.inl h)]
    · rw [if_pos (Or.inr (Or.inl h))]
    · rw [if_pos (Or.inr (Or.inr h))]
    · by_cases hv : s.presetName = [] ∨ cleanDomain s.oldDomain = [] ∨
        cleanDomain s.newDomain = []
      · rw [if_pos hv]
      · rw [if_neg hv]
        rcases h with ⟨p, hp, he⟩
        rw [if_pos (List.any_eq_true.mpr ⟨p, hp, by simp [he]⟩)]
  exact ⟨h1, by rw [h1], by rw [h1]⟩

/-- Witness for C6: saving under a name that already exists leaves the
state unchanged. -/
theorem C6_witness :
    ((AppState.mk [] ("a.com".toList) ("b.com".toList) []
        [] [⟨"1".toList, "n".toList, "a.com".toList, "b.com".toList⟩]
        ("n".toList) true).presetName = [] ∨
      cleanDomain (AppState.mk [] ("a.com".toList) ("b.com".toList) []
        [] [⟨"1".toList, "n".toList, "a.com".toList, "b.com".toList⟩]
        ("n".toList) true).oldDomain = [] ∨
      cleanDomain (AppState.mk [] ("a.com".toList) ("b.com".toList) []
        [] [⟨"1".toList, "n".toList, "a.com".toList, "b.com".toList⟩]
        ("n".toList) true).newDomain = [] ∨
      ∃ p ∈ (AppState.mk [] ("a.com".toList) ("b.com".toList) []
        [] [⟨"1".toList, "n".toList, "a.com".toList, "b.com".toList⟩]
        ("n".toList) true).presets,
        p.name = (AppState.mk [] ("a.com".toList) ("b.com".toList) []
          [] [⟨"1".toList, "n".toList, "a.com".toList, "b.com".toList⟩]
          ("n".toList) true).presetName) ∧
    savePreset 5 (AppState.mk [] ("a.com".toList) ("b.com".toList) []
        [] [⟨"1".toList, "n".toList, "a.com".toList, "b.com".toList⟩]
        ("n".toList) true) =
      AppState.mk [] ("a.com".toList) ("b.com".toList) []
        [] [⟨"1".toList, "n".toList, "a.com".toList, "b.com".toList⟩]
        ("n".toList) true :=
  ⟨Or.inr (Or.inr (Or.inr ⟨⟨"1".toList, "n".toList, "a.com".toList, "b.com".toList⟩,
    by simp, rfl⟩)),
   (C6_savePreset_reject 5 _
     (Or.inr (Or.inr (Or.inr ⟨⟨"1".toList, "n".toList, "a.com".toList, "b.com".toList⟩,
       by simp, rfl⟩)))).1⟩

/-- C10: `savePreset` uses the preset name exactly as entered — no
trimming or normalization — and the duplicate check compares raw
strings: whenever no existing preset has a name raw-equal to the entered
name (even a whitespace-only one, or one differing from an existing
name only in surrounding whitespace) and the other fields are valid,
the save succeeds and appends a preset carrying the untrimmed name. -/
theorem C10_savePreset_raw_name (now : Nat) (s : AppState)
    (h1 : s.presetName ≠ [])
    (h2 : cleanDomain s.oldDomain ≠ []) (h3 : cleanDomain s.newDomain ≠ [])
    (h4 : ∀ p ∈ s.presets, p.name ≠ s.presetName) :
    (savePreset now s).presets = s.presets ++
      [⟨natToDigits now, s.presetName, cleanDomain s.oldDomain,
        cleanDomain s.newDomain⟩] := by
  unfold savePreset
  rw [if_neg (by push_neg; exact ⟨h1, h2, h3⟩)]
  rw [if_neg (fun hc => by
    rcases List.any_eq_true.mp hc with ⟨p, hp, hbe⟩
    exact h4 p hp (by simpa using hbe))]

/-- Witness for C10: a whitespace-only name is stored verbatim, and a
name differing from an existing one only by a leading space is treated
as distinct and saved verbatim. -/
theorem C10_witness :
    (savePreset 3 (AppState.mk [] ("a.com".toList) ("b.com".toList) []
        [] [] (" ".toList) true)).presets =
      [] ++ [⟨natToDigits 3, " ".toList, "a.com".toList, "b.com".toList⟩] ∧
    (savePreset 4 (AppState.mk [] ("a.com".toList) ("b.com".toList) []
        [] [⟨"1".toList, "n".toList, "a.com".toList, "b.com".toList⟩]
        (" n".toList) true)).presets =
      [⟨"1".toList, "n".toList, "a.com".toList, "b.com".toList⟩] ++
        [⟨natToDigits 4, " n".toList, "a.com".toList, "b.com".toList⟩] :=
  ⟨C10_savePreset_raw_name 3 _ (by decide) (by decide) (by decide)
     (by intro p hp; simp at hp),
   C10_savePreset_raw_name 4 _ (by decide) (by decide) (by decide)
     (by intro p hp; simp at hp; rw [hp]; decide)⟩

/-- C9: the auto-extract effect writes to the old-domain field only when
the toggle is enabled, the extractor result is non-null (and non-empty),
and the field is currently empty — in which case it stores the
protocol-stripped result; it never overwrites a non-empty old-domain
field, and while disabled it changes nothing at all. -/
theorem C9_autoExtract_guard (s : AppState) :
    ((autoExtractEffect s).oldDomain ≠ s.oldDomain →
      s.autoExtractEnabled = true ∧ s.oldDomain = [] ∧
      ∃ d, extractCommonDomain s.inputUrls = some d ∧ d ≠ [] ∧
        (autoExtractEffect s).oldDomain = removeProtocol d) ∧
    (s.autoExtractEnabled = false → autoExtractEffect s = s) ∧
    (s.oldDomain ≠ [] → (autoExtractEffect s).oldDomain = s.oldDomain) := by
  unfold autoExtractEffect
  by_cases he : s.autoExtractEnabled
  · rw [if_pos he]
    cases hx : extractCommonDomain s.inputUrls with
    | none =>
      refine ⟨fun hc => absurd rfl hc, fun hd => absurd he (by simp [hd]), fun _ => rfl⟩
    | some d =>
      simp only []
      by_cases hg : d ≠ [] ∧ s.oldDomain = []
      · rw [if_pos hg]
        refine ⟨fun _ => ⟨he, hg.2, d, rfl, hg.1, rfl⟩,
          fun hd => absurd he (by simp [hd]), fun hne => absurd hg.2 hne⟩
      · rw [if_neg hg]
        refine ⟨fun hc => absurd rfl hc, fun hd => absurd he (by simp [hd]), fun _ => rfl⟩
  · rw [if_neg he]
    refine ⟨fun hc => absurd rfl hc, fun _ => rfl, fun _ => rfl⟩

/-- Witness for C9: while disabled the effect is the identity even
though the extractor would yield a suggestion, and an enabled effect
never overwrites a non-empty old-domain field. -/
theorem C9_witness :
    autoExtractEffect (AppState.mk ("https://a.com/x".toList) ("keep.me".toList)
        [] [] [] [] [] false) =
      AppState.mk ("https://a.com/x".toList) ("keep.me".toList) [] [] [] [] [] false ∧
    (autoExtractEffect (AppState.mk ("https://a.com/x".toList) ("keep.me".toList)
        [] [] [] [] [] true)).oldDomain =
      (AppState.mk ("https://a.com/x".toList) ("keep.me".toList)
        [] [] [] [] [] true).oldDomain :=
  ⟨(C9_autoExtract_guard _).2.1 rfl,
   (C9_autoExtract_guard _).2.2 (by decide)⟩

theorem replaceLine_match (old new l : Str) (u : URLRecord)
    (hp : parseURL (trim l) = some u) (hm : lowerStr u.host = lowerStr old) :
    replaceLine old new l = (serializeURL (setHostname u new), false) := by
  unfold replaceLine
  rw [hp]
  simp only []
  rw [if_pos hm]

theorem replaceLine_nomatch (old new l : Str) (u : URLRecord)
    (hp : parseURL (trim l) = some u) (hm : lowerStr u.host ≠ lowerStr old) :
    replaceLine old new l = (trim l, false) := by
  unfold replaceLine
  rw [hp]
  simp only []
  rw [if_neg hm]

theorem replaceLine_invalid (old new l : Str)
    (hp : parseURL (trim l) = none) :
    replaceLine old new l = (trim l ++ invalidMark, true) := by
  unfold replaceLine
  rw [hp]

theorem replaceLine_snd (old new l : Str) :
    (replaceLine old new l).2 = (parseURL (trim l)).isNone := by
  cases hp : parseURL (trim l) with
  | some u =>
    by_cases hm : lowerStr u.host = lowerStr old
    · rw [replaceLine_match old new l u hp hm]
      rfl
    · rw [replaceLine_nomatch old new l u hp hm]
      rfl
  | none =>
    rw [replaceLine_invalid old new l hp]
    rfl

theorem nonEmptyLines_no_newline (text : Str) :
    ∀ l ∈ nonEmptyLines text, '\n' ∉ l := by
  intro l hl
  exact splitLines_no_newline text l (List.mem_filter.mp hl).1

theorem nonEmptyLines_trim_ne_nil (text : Str) :
    ∀ l ∈ nonEmptyLines text, trim l ≠ [] := by
  intro l hl
  have := (List.mem_filter.mp hl).2
  simpa using this

theorem replaceLine_no_newline (old new l : Str) (hl : '\n' ∉ l) :
    '\n' ∉ (replaceLine old new l).1 := by
  cases hp : parseURL (trim l) with
  | some u =>
    by_cases hm : lowerStr u.host = lowerStr old
    · rw [replaceLine_match old new l u hp hm]
      exact newline_not_mem_serializeURL _
        (wellFormed_setHostname u new (parse_wf _ u hp))
    · rw [replaceLine_nomatch old new l u hp hm]
      exact fun hmem => hl (mem_trim l _ hmem)
  | none =>
    rw [replaceLine_invalid old new l hp]
    intro hmem
    rcases List.mem_append.mp hmem with hm2 | hm2
    · exact hl (mem_trim l _ hm2)
    · exact absurd hm2 (by decide)

/-- C4: for every input text and domain pair, the output of the replace
core is the newline-join of one emitted line per non-empty input line,
in order (so the output has exactly as many lines as there are non-empty
input lines); every emitted line is exactly one of hostname-replaced,
unchanged pass-through of the trimmed line, or the trimmed line suffixed
with the fixed invalid-URL marker; and the invalid counter equals the
number of lines that failed to parse, which are exactly the
marker-suffixed ones. -/
theorem C4_replace_line_classification (inputUrls old new : Str) :
    (replaceUrls inputUrls old new).1 =
      joinLines ((nonEmptyLines inputUrls).map (fun l => (replaceLine old new l).1)) ∧
    ((nonEmptyLines inputUrls).map (fun l => (replaceLine old new l).1)).length =
      (nonEmptyLines inputUrls).length ∧
    (nonEmptyLines inputUrls ≠ [] →
      splitLines (replaceUrls inputUrls old new).1 =
        (nonEmptyLines inputUrls).map (fun l => (replaceLine old new l).1)) ∧
    (∀ l ∈ nonEmptyLines inputUrls,
      (∃ u, parseURL (trim l) = some u ∧ lowerStr u.host = lowerStr old ∧
        replaceLine old new l = (serializeURL (setHostname u new), false)) ∨
      (∃ u, parseURL (trim l) = some u ∧ lowerStr u.host ≠ lowerStr old ∧
        replaceLine old new l = (trim l, false)) ∨
      (parseURL (trim l) = none ∧
        replaceLine old new l = (trim l ++ invalidMark, true))) ∧
    (replaceUrls inputUrls old new).2 =
      ((nonEmptyLines inputUrls).filter
        (fun l => (parseURL (trim l)).isNone)).length := by
  refine ⟨rfl, List.length_map _ _, ?_, ?_, ?_⟩
  · intro hne
    show splitLines (joinLines _) = _
    apply splitLines_joinLines
    · simp [hne]
    · intro e he
      rcases List.mem_map.mp he with ⟨l, hl, hle⟩
      rw [← hle]
      exact replaceLine_no_newline old new l (nonEmptyLines_no_newline inputUrls l hl)
  · intro l hl
    cases hp : parseURL (trim l) with
    | some u =>
      by_cases hm : lowerStr u.host = lowerStr old
      · exact Or.inl ⟨u, rfl, hm, replaceLine_match old new l u hp hm⟩
      · exact Or.inr (Or.inl ⟨u, rfl, hm, replaceLine_nomatch old new l u hp hm⟩)
    | none =>
      exact Or.inr (Or.inr ⟨rfl, replaceLine_invalid old new l hp⟩)
  · show ((nonEmptyLines inputUrls).filter
        (fun l => (replaceLine old new l).2)).length = _
    congr 1
    apply List.filter_congr
    intro l _
    rw [replaceLine_snd]

/-- Witness for C4's conditional conjunct at a concrete three-line input
exercising all three classifications. -/
theorem C4_witness :
    (nonEmptyLines ("https://a.com/x\nhttps://b.org/y\nnot-a-url".toList) ≠ []) ∧
    splitLines ((replaceUrls ("https://a.com/x\nhttps://b.org/y\nnot-a-url".toList)
        ("a.com".toList) ("c.com".toList)).1) =
      (nonEmptyLines ("https://a.com/x\nhttps://b.org/y\nnot-a-url".toList)).map
        (fun l => (replaceLine ("a.com".toList) ("c.com".toList) l).1) :=
  ⟨by decide,
   (C4_replace_line_classification ("https://a.com/x\nhttps://b.org/y\nnot-a-url".toList)
     ("a.com".toList) ("c.com".toList)).2.2.1 (by decide)⟩

theorem wf_host_lower (u : URLRecord) (hwf : wellFormedURL u) :
    lowerStr u.host = u.host :=
  lowerStr_eq_self u.host (fun c hc => (hwf.2.2.2.2.2.1 c hc).2)

theorem setHostname_same (u : URLRecord) (d : Str) (hwf : wellFormedURL u)
    (hm : lowerStr u.host = lowerStr d) : setHostname u d = u := by
  have hself : lowerStr u.host = u.host := wf_host_lower u hwf
  have hhd : u.host = lowerStr d := hself.symm.trans hm
  have hdne : d ≠ [] := by
    intro hd
    subst hd
    have : u.host = [] := by simpa [lowerStr] using hhd
    exact hwf.2.2.2.2.1 this
  have hdall : ∀ c ∈ d, isHostChar c = true := by
    intro c hc
    have hmem : lowerChar c ∈ lowerStr d := List.mem_map.mpr ⟨c, hc, rfl⟩
    rw [← hhd] at hmem
    have := (hwf.2.2.2.2.2.1 (lowerChar c) hmem).1
    rw [isHostChar_lowerChar] at this
    exact this
  have hval : validHostStr d = true := by
    unfold validHostStr
    simp [hdne]
    intro c hc
    simp [hdall c hc]
  unfold setHostname
  rw [if_pos hval, ← hhd]

theorem replaceLine_fixed_match (d e : Str) (u1 : URLRecord)
    (hwf1 : wellFormedURL u1) (he : e = serializeURL u1)
    (hm1 : lowerStr u1.host = lowerStr d) :
    replaceLine d d e = (e, false) := by
  have htr : trim e = e := by rw [he]; exact trim_serializeURL u1 hwf1
  have hp : parseURL (trim e) = some u1 := by
    rw [htr, he]
    exact parse_serializeURL u1 hwf1
  rw [replaceLine_match d d e u1 hp hm1, setHostname_same u1 d hwf1 hm1, he]

theorem replaceLine_fixed_nomatch (d l : Str) (u : URLRecord)
    (hp : parseURL (trim l) = some u) (hm : lowerStr u.host ≠ lowerStr d) :
    replaceLine d d (trim l) = (trim l, false) := by
  have hp2 : parseURL (trim (trim l)) = some u := by rw [trim_idem]; exact hp
  have := replaceLine_nomatch d d (trim l) u hp2 hm
  rw [trim_idem] at this
  exact this

/-- C7 counterexample: with an unparsable line present, applying the
replace core a second time to its own output appends the invalid marker
again, so the second application does change the output, refuting the
claim that applying it a second time changes nothing. -/
theorem C7_counterexample :
    (replaceUrls ((replaceUrls ("not-a-url".toList) ("a.com".toList) ("a.com".toList)).1)
        ("a.com".toList) ("a.com".toList)).1 ≠
      (replaceUrls ("not-a-url".toList) ("a.com".toList) ("a.com".toList)).1 := by
  decide

/-- C7 (amended): for inputs whose non-empty lines all parse as URLs,
`replace(urls, d, d)` returns every non-matching line unchanged
(the trimmed line verbatim) and every matching line re-serialized
identically (the serializer applied to the unchanged record, since
setting the hostname to `d` is a no-op on a record whose hostname
already equals `d` up to case), and applying the replace core a second
time to its own output changes nothing.  When an unparsable line is
present the second application appends the invalid marker again (see
the counterexample), so the claim must be restricted to fully parsable
inputs. -/
theorem C7_replace_same_domain (text d : Str)
    (hall : ∀ l ∈ nonEmptyLines text, (parseURL (trim l)).isSome = true) :
    (∀ l ∈ nonEmptyLines text, ∀ u, parseURL (trim l) = some u →
      (lowerStr u.host ≠ lowerStr d → replaceLine d d l = (trim l, false)) ∧
      (lowerStr u.host = lowerStr d → replaceLine d d l = (serializeURL u, false))) ∧
    (replaceUrls ((replaceUrls text d d).1) d d).1 = (replaceUrls text d d).1 := by
  constructor
  · intro l hl u hp
    constructor
    · intro hm
      exact replaceLine_nomatch d d l u hp hm
    · intro hm
      rw [replaceLine_match d d l u hp hm, setHostname_same u d (parse_wf _ u hp) hm]
  · cases hurls : nonEmptyLines text with
    | nil =>
      have hout : (replaceUrls text d d).1 = [] := by
        unfold replaceUrls
        rw [hurls]
        rfl
      rw [hout]
      rfl
    | cons l0 ls0 =>
      have hne : nonEmptyLines text ≠ [] := by rw [hurls]; simp
      rw [← hurls] at *
      have hperline : ∀ l ∈ nonEmptyLines text,
          trim (replaceLine d d l).1 = (replaceLine d d l).1 ∧
          (replaceLine d d l).1 ≠ [] ∧
          replaceLine d d ((replaceLine d d l).1) = ((replaceLine d d l).1, false) := by
        intro l hl
        have hs := hall l hl
        cases hp : parseURL (trim l) with
        | none => rw [hp] at hs; simp at hs
        | some u =>
          have hwfu := parse_wf _ u hp
          by_cases hm : lowerStr u.host = lowerStr d
          · have hwf1 : wellFormedURL (setHostname u d) := wellFormed_setHostname u d hwfu
            rw [replaceLine_match d d l u hp hm]
            refine ⟨trim_serializeURL _ hwf1, serializeURL_ne_nil _ hwf1, ?_⟩
            have hm1 : lowerStr (setHostname u d).host = lowerStr d := by
              rw [setHostname_same u d hwfu hm]
              exact hm
            rw [setHostname_same u d hwfu hm] at hm1 ⊢
            exact replaceLine_fixed_match d _ u hwfu rfl hm
          · rw [replaceLine_nomatch d d l u hp hm]
            refine ⟨trim_idem l, nonEmptyLines_trim_ne_nil text l hl, ?_⟩
            exact replaceLine_fixed_nomatch d l u hp hm
      have hsplit : splitLines ((replaceUrls text d d).1) =
          (nonEmptyLines text).map (fun l => (replaceLine d d l).1) :=
        (C4_replace_line_classification text d d).2.2.1 hne
      have hnel : nonEmptyLines ((replaceUrls text d d).1) =
          (nonEmptyLines text).map (fun l => (replaceLine d d l).1) := by
        unfold nonEmptyLines
        rw [hsplit]
        apply List.filter_eq_self.mpr
        intro e he
        rcases List.mem_map.mp he with ⟨l, hl, hle⟩
        rcases hperline l hl with ⟨ht, hne2, _⟩
        rw [← hle]
        simp [ht, hne2]
      show joinLines ((nonEmptyLines ((replaceUrls text d d).1)).map
        (fun l => (replaceLine d d l).1)) = _
      rw [hnel, List.map_map]
      have hmapeq : ((nonEmptyLines text).map
          ((fun l => (replaceLine d d l).1) ∘ (fun l => (replaceLine d d l).1))) =
          (nonEmptyLines text).map (fun l => (replaceLine d d l).1) := by
        apply List.map_congr_left
        intro l hl
        rcases hperline l hl with ⟨_, _, hfix⟩
        show (replaceLine d d ((replaceLine d d l).1)).1 = (replaceLine d d l).1
        rw [hfix]
      rw [hmapeq]
      rfl

/-- Witness for C7's amended theorem: a two-line fully parsable input
with one matching and one non-matching line is a fixed point of a
second application. -/
theorem C7_witness :
    (∀ l ∈ nonEmptyLines ("https://a.com/x\nhttp://b.org/y".toList),
      (parseURL (trim l)).isSome = true) ∧
    (replaceUrls ((replaceUrls ("https://a.com/x\nhttp://b.org/y".toList)
        ("a.com".toList) ("a.com".toList)).1) ("a.com".toList) ("a.com".toList)).1 =
      (replaceUrls ("https://a.com/x\nhttp://b.org/y".toList)
        ("a.com".toList) ("a.com".toList)).1 :=
  ⟨by decide,
   (C7_replace_same_domain ("https://a.com/x\nhttp://b.org/y".toList)
     ("a.com".toList) (by decide)).2⟩

/-- C8: on a successfully parsed line whose hostname case-insensitively
equals the old domain, the replace core emits exactly the serialization
of the record with only the hostname component updated: scheme,
userinfo, port, path, query and fragment are all preserved (so
occurrences of the old domain inside the path or query are untouched),
the new hostname is the host-parsed (lower-cased) new domain whenever it
is a valid host, and re-parsing the emitted line recovers precisely that
record, confirming preservation under standard URL serialization. -/
theorem C8_hostname_component_only (old new l : Str) (u : URLRecord)
    (hp : parseURL (trim l) = some u)
    (hm : lowerStr u.host = lowerStr old) :
    replaceLine old new l = (serializeURL (setHostname u new), false) ∧
    (setHostname u new).scheme = u.scheme ∧
    (setHostname u new).userinfo = u.userinfo ∧
    (setHostname u new).port = u.port ∧
    (setHostname u new).path = u.path ∧
    (setHostname u new).query = u.query ∧
    (setHostname u new).frag = u.frag ∧
    (validHostStr new = true → (setHostname u new).host = lowerStr new) ∧
    parseURL ((replaceLine old new l).1) = some (setHostname u new) := by
  have hwfu := parse_wf _ u hp
  have hwf1 := wellFormed_setHostname u new hwfu
  have hrl := replaceLine_match old new l u hp hm
  rcases setHostname_scheme u new with ⟨f1, f2, f3, f4, f5, f6⟩
  refine ⟨hrl, f1, f2, f3, f4, f5, f6, setHostname_host_valid u new, ?_⟩
  rw [hrl]
  exact parse_serializeURL _ hwf1

/-- Witness for C8 at a concrete matching line whose path contains the
old domain: only the hostname changes. -/
theorem C8_witness :
    parseURL (trim ("https://a.com/a.com?q=a.com".toList)) =
      some (URLRecord.mk ("https".toList) none ("a.com".toList) none
        ("/a.com".toList) (some ("q=a.com".toList)) none) ∧
    (replaceLine ("a.com".toList) ("c.com".toList)
        ("https://a.com/a.com?q=a.com".toList) =
      (serializeURL (setHostname
        (URLRecord.mk ("https".toList) none ("a.com".toList) none
          ("/a.com".toList) (some ("q=a.com".toList)) none) ("c.com".toList)), false) ∧
     (setHostname (URLRecord.mk ("https".toList) none ("a.com".toList) none
        ("/a.com".toList) (some ("q=a.com".toList)) none) ("c.com".toList)).scheme =
      (URLRecord.mk ("https".toList) none ("a.com".toList) none
        ("/a.com".toList) (some ("q=a.com".toList)) none).scheme ∧
     (setHostname (URLRecord.mk ("https".toList) none ("a.com".toList) none
        ("/a.com".toList) (some ("q=a.com".toList)) none) ("c.com".toList)).userinfo =
      (URLRecord.mk ("https".toList) none ("a.com".toList) none
        ("/a.com".toList) (some ("q=a.com".toList)) none).userinfo ∧
     (setHostname (URLRecord.mk ("https".toList) none ("a.com".toList) none
        ("/a.com".toList) (some ("q=a.com".toList)) none) ("c.com".toList)).port =
      (URLRecord.mk ("https".toList) none ("a.com".toList) none
        ("/a.com".toList) (some ("q=a.com".toList)) none).port ∧
     (setHostname (URLRecord.mk ("https".toList) none ("a.com".toList) none
        ("/a.com".toList) (some ("q=a.com".toList)) none) ("c.com".toList)).path =
      (URLRecord.mk ("https".toList) none ("a.com".toList) none
        ("/a.com".toList) (some ("q=a.com".toList)) none).path ∧
     (setHostname (URLRecord.mk ("https".toList) none ("a.com".toList) none
        ("/a.com".toList) (some ("q=a.com".toList)) none) ("c.com".toList)).query =
      (URLRecord.mk ("https".toList) none ("a.com".toList) none
        ("/a.com".toList) (some ("q=a.com".toList)) none).query ∧
     (setHostname (URLRecord.mk ("https".toList) none ("a.com".toList) none
        ("/a.com".toList) (some ("q=a.com".toList)) none) ("c.com".toList)).frag =
      (URLRecord.mk ("https".toList) none ("a.com".toList) none
        ("/a.com".toList) (some ("q=a.com".toList)) none).frag ∧
     (validHostStr ("c.com".toList) = true →
      (setHostname (URLRecord.mk ("https".toList) none ("a.com".toList) none
        ("/a.com".toList) (some ("q=a.com".toList)) none) ("c.com".toList)).host =
        lowerStr ("c.com".toList)) ∧
     parseURL ((replaceLine ("a.com".toList) ("c.com".toList)
        ("https://a.com/a.com?q=a.com".toList)).1) =
      some (setHostname (URLRecord.mk ("https".toList) none ("a.com".toList) none
        ("/a.com".toList) (some ("q=a.com".toList)) none) ("c.com".toList))) :=
  ⟨by decide,
   C8_hostname_component_only ("a.com".toList) ("c.com".toList)
     ("https://a.com/a.com?q=a.com".toList)
     (URLRecord.mk ("https".toList) none ("a.com".toList) none
       ("/a.com".toList) (some ("q=a.com".toList)) none)
     (by decide) (by decide)⟩
